import Mathlib

/-!
Verification of the position-search core and engine-analysis core of a chess
workbench application, against its natural-language specification.

The development shallowly embeds the Rust sources:

* `src-tauri/src/db/search.rs` — move-blob decoding (`MoveStream::next_move`),
  position queries (`PositionQuery::matches`, `is_reachable_by`), the
  next-move-after-match scan (`get_move_after_match`), the board hash
  (`mix64`, `board_hash`) and the checkpoint-row builder
  (`build_position_checkpoints`).
* `src-tauri/src/engine/communication.rs` — `AnalysisHandler::process_info_message`
  and `parse_info_to_best_moves`.
* `src-tauri/src/engine/types.rs` — `invert_score`, `AnalysisState`.
* `src-tauri/src/engine/process.rs` — `EngineProcess::stop` and its helpers.
* `src-tauri/src/chess/evaluation.rs` — `piece_value`, `count_material`,
  `qsearch`, `naive_eval`.

The external chess library (shakmaty) is not part of the repository; it is
abstracted as a structure of operations (`ChessLib`, `UciLib`).  Machine
integers are modelled as `Nat`/`Int`, with explicit `% 2 ^ 64` where the Rust
code relies on wrapping `u64`/`usize` arithmetic.  Loops whose termination is
not structural are modelled with an explicit fuel argument together with
congruence lemmas showing the chosen fuel is irrelevant once large enough, so
that every definition evaluates by kernel reduction.
-/

deriving instance DecidableEq for Except

namespace Search

/-- Material count pair, mirroring `MaterialCount = ByColor<u8>` from the
database layer (`db/pgn.rs`). -/
structure MaterialCount where
  white : Nat
  black : Nat
deriving DecidableEq, Repr

/-- Position as seen by the query code: a board, the side to move, the
legal en-passant square (`ep_square(EnPassantMode::Legal)` in shakmaty) and
the castling rights.  The board type `B` and castling type `C` are abstract;
`PositionQuery::matches` reads only the first three components. -/
structure Pos (B C : Type) where
  board : B
  turnWhite : Bool
  ep : Option Nat
  castling : C
deriving DecidableEq, Repr

/-- Operations consumed from the external chess library (shakmaty), plus the
two fingerprint functions of the database layer.  `legalMoves` is the
library's legal-move list in library order; `sanPlay` is
`SanPlus::from_move_and_play_unchecked`, returning the SAN string of the move
in the old position together with the new position.  The eight bitboard plane
accessors return the planes as `u64` values.

`materialCount` and `pawnHome` are modelled from the spec: they embed
`get_material_count` and `get_pawn_home` of `db/pgn.rs` / `db/mod.rs`, whose
sources are not in the repository snapshot; per the spec they are pure
functions of the board returning the capped material pair and the 16-bit
pawns-still-home bitfield. -/
structure ChessLib (B C M : Type) where
  defaultPos : Pos B C
  parseFen : String → Option (Pos B C)
  legalMoves : Pos B C → List M
  sanPlay : Pos B C → M → String × Pos B C
  kings : B → Nat
  queens : B → Nat
  rooks : B → Nat
  bishops : B → Nat
  knights : B → Nat
  pawns : B → Nat
  whiteBB : B → Nat
  blackBB : B → Nat
  materialCount : B → MaterialCount
  pawnHome : B → Nat

/-- Data for exact position matching (`ExactData` in `db/search.rs`). -/
structure ExactData (B C : Type) where
  pawnHome : Nat
  material : MaterialCount
  position : Pos B C
deriving DecidableEq

/-- Precomputed masks for the non-exact matching mode (`PartialMasks` in
`db/search.rs`); `nonEmpty` is the bitfield recording which planes of the
query are non-empty. -/
structure PartMasks where
  kings : Nat
  queens : Nat
  rooks : Nat
  bishops : Nat
  knights : Nat
  pawns : Nat
  white : Nat
  black : Nat
  nonEmpty : Nat
deriving DecidableEq

/-- Bit for the kings plane in `PartMasks.nonEmpty`. -/
def PartMasks.KINGS : Nat := 1
/-- Bit for the queens plane. -/
def PartMasks.QUEENS : Nat := 2
/-- Bit for the rooks plane. -/
def PartMasks.ROOKS : Nat := 4
/-- Bit for the bishops plane. -/
def PartMasks.BISHOPS : Nat := 8
/-- Bit for the knights plane. -/
def PartMasks.KNIGHTS : Nat := 16
/-- Bit for the pawns plane. -/
def PartMasks.PAWNS : Nat := 32
/-- Bit for the white plane. -/
def PartMasks.WHITE : Nat := 64
/-- Bit for the black plane. -/
def PartMasks.BLACK : Nat := 128

/-- Data for the subset (non-exact) matching mode (`PartialData` in
`db/search.rs`); the stored `Setup` is never read by the matching code, so it
is omitted here. -/
structure SubsetData where
  material : MaterialCount
  masks : PartMasks
deriving DecidableEq

/-- Query type for searching positions (`PositionQuery` in `db/search.rs`).
The second constructor is the source's `Partial` variant. -/
inductive PositionQuery (B C : Type) where
  | exactQ : ExactData B C → PositionQuery B C
  | partMatch : SubsetData → PositionQuery B C
deriving DecidableEq

/-- Embeds `is_end_reachable(end, pos) = end & !pos == 0` over `u16`. -/
def isEndReachable (e pos : Nat) : Bool :=
  e &&& (65535 ^^^ pos) = 0

/-- Embeds `is_material_reachable(end, pos)`. -/
def isMaterialReachable (e pos : MaterialCount) : Bool :=
  e.white ≤ pos.white ∧ e.black ≤ pos.black

/-- Embeds `is_contained(container, subset) = container & subset == subset`. -/
def isContained (container subset : Nat) : Bool :=
  container &&& subset = subset

/-- Embeds `PositionQuery::matches`.  The `Exact` arm compares side to move,
board and legal en-passant square; castling rights are not compared (the
source comments that `Castles` lacks `PartialEq` in shakmaty 0.27.3). -/
def matchesB {B C M : Type} (lib : ChessLib B C M) [DecidableEq B] :
    PositionQuery B C → Pos B C → Bool
  | .exactQ d, p =>
    if d.position.turnWhite ≠ p.turnWhite then false
    else if d.position.board ≠ p.board then false
    else if d.position.ep ≠ p.ep then false
    else true
  | .partMatch d, p =>
    let m := d.masks
    if m.nonEmpty = 0 then true
    else
      let tested := p.board
      if m.nonEmpty &&& PartMasks.KINGS ≠ 0 ∧ ¬ isContained (lib.kings tested) m.kings then false
      else if m.nonEmpty &&& PartMasks.QUEENS ≠ 0 ∧ ¬ isContained (lib.queens tested) m.queens then false
      else if m.nonEmpty &&& PartMasks.ROOKS ≠ 0 ∧ ¬ isContained (lib.rooks tested) m.rooks then false
      else if m.nonEmpty &&& PartMasks.BISHOPS ≠ 0 ∧ ¬ isContained (lib.bishops tested) m.bishops then false
      else if m.nonEmpty &&& PartMasks.KNIGHTS ≠ 0 ∧ ¬ isContained (lib.knights tested) m.knights then false
      else if m.nonEmpty &&& PartMasks.PAWNS ≠ 0 ∧ ¬ isContained (lib.pawns tested) m.pawns then false
      else if m.nonEmpty &&& PartMasks.WHITE ≠ 0 ∧ ¬ isContained (lib.whiteBB tested) m.white then false
      else if m.nonEmpty &&& PartMasks.BLACK ≠ 0 ∧ ¬ isContained (lib.blackBB tested) m.black then false
      else true

/-- Embeds `PositionQuery::is_reachable_by`. -/
def isReachableByB {B C : Type} :
    PositionQuery B C → MaterialCount → Nat → Bool
  | .exactQ d, mat, ph => isEndReachable d.pawnHome ph && isMaterialReachable d.material mat
  | .partMatch d, mat, _ => isMaterialReachable d.material mat

/-- Reserved move-blob byte: start of a variation. -/
def START_VARIATION : Nat := 254
/-- Reserved move-blob byte: end of a variation. -/
def END_VARIATION : Nat := 253
/-- Reserved move-blob byte: comment marker. -/
def COMMENT : Nat := 252
/-- Reserved move-blob byte: NAG marker. -/
def NAG : Nat := 251

/-- Big-endian `u64` length read from the eight bytes following a COMMENT
token at index `i` (`u64::from_be_bytes` in `MoveStream::next_move`). -/
def commentLen (bytes : List Nat) (i : Nat) : Nat :=
  bytes.getD (i + 1) 0 * 2 ^ 56 + bytes.getD (i + 2) 0 * 2 ^ 48 +
  bytes.getD (i + 3) 0 * 2 ^ 40 + bytes.getD (i + 4) 0 * 2 ^ 32 +
  bytes.getD (i + 5) 0 * 2 ^ 24 + bytes.getD (i + 6) 0 * 2 ^ 16 +
  bytes.getD (i + 7) 0 * 2 ^ 8 + bytes.getD (i + 8) 0

/-- Fuel-indexed inner loop skipping a variation to its balanced end
(`START_VARIATION` arm of `MoveStream::next_move`): while the index is in
range and the depth is positive, bump the depth on 254, drop it on 253 and
advance one byte. -/
def skipVarFuel (bytes : List Nat) : Nat → Nat → Nat → Nat
  | 0, i, _ => i
  | f + 1, i, d =>
    if i < bytes.length ∧ 0 < d then
      let b := bytes.getD i 0
      skipVarFuel bytes f (i + 1)
        (if b = START_VARIATION then d + 1 else if b = END_VARIATION then d - 1 else d)
    else i

/-- Variation-skipping loop with the canonical fuel `bytes.length - i`. -/
def skipVariation (bytes : List Nat) (i d : Nat) : Nat :=
  skipVarFuel bytes (bytes.length - i) i d

/-- Fuel-indexed embedding of `MoveStream::next_move`.  The stream state is
the byte index and the current position; a successful step returns the new
index, the position after the decoded move and the move's SAN string.  One
fuel unit is spent per loop iteration; since every iteration that continues
advances the index while it is below `bytes.length`, fuel
`bytes.length - i` always suffices (`nextMoveFuel_congr`). -/
def nextMoveFuel {B C M : Type} (lib : ChessLib B C M) (bytes : List Nat) :
    Nat → Nat → Pos B C → Option (Nat × Pos B C × String)
  | 0, _, _ => none
  | f + 1, i, p =>
    if i < bytes.length then
      let byte := bytes.getD i 0
      if byte = COMMENT then
        if bytes.length ≤ i + 8 then none
        else nextMoveFuel lib bytes f (i + 9 + commentLen bytes i) p
      else if byte = NAG then
        nextMoveFuel lib bytes f (i + 2) p
      else if byte = START_VARIATION then
        nextMoveFuel lib bytes f (skipVariation bytes (i + 1) 1) p
      else if byte = END_VARIATION then
        nextMoveFuel lib bytes f (i + 1) p
      else
        let lm := lib.legalMoves p
        if h : byte < lm.length then
          let sp := lib.sanPlay p (lm.get ⟨byte, h⟩)
          some (i + 1, sp.2, sp.1)
        else none
    else none

/-- Embedding of `MoveStream::next_move` at stream state `(i, p)`. -/
def nextMove {B C M : Type} (lib : ChessLib B C M) (bytes : List Nat)
    (i : Nat) (p : Pos B C) : Option (Nat × Pos B C × String) :=
  nextMoveFuel lib bytes (bytes.length - i) i p

/-- Fuel-indexed main-line unfolding: the list of (position after the move,
SAN) pairs produced by repeatedly calling `MoveStream::next_move` from stream
state `(i, p)`.  Every decoded move consumes at least one byte, so fuel
`bytes.length + 1 - i` suffices (`mainLineFuel_congr`). -/
def mainLineFuel {B C M : Type} (lib : ChessLib B C M) (bytes : List Nat) :
    Nat → Nat → Pos B C → List (Pos B C × String)
  | 0, _, _ => []
  | f + 1, i, p =>
    match nextMove lib bytes i p with
    | none => []
    | some (i2, p2, s) => (p2, s) :: mainLineFuel lib bytes f i2 p2

/-- Main line decoded from stream state `(i, p)`. -/
def mainLineFrom {B C M : Type} (lib : ChessLib B C M) (bytes : List Nat)
    (i : Nat) (p : Pos B C) : List (Pos B C × String) :=
  mainLineFuel lib bytes (bytes.length + 1 - i) i p

/-- Main line of a decoded game: positions after each main-line ply together
with the ply's SAN string. -/
def mainLine {B C M : Type} (lib : ChessLib B C M) (bytes : List Nat)
    (start : Pos B C) : List (Pos B C × String) :=
  mainLineFrom lib bytes 0 start

/-- Positions along a game, ply 0 first: the start position followed by the
position after each decoded main-line move. -/
def plyPositions {B C M : Type} (lib : ChessLib B C M) (bytes : List Nat)
    (start : Pos B C) : List (Pos B C) :=
  start :: (mainLine lib bytes start).map (·.1)

/-- SAN strings of the decoded main-line moves; the move at ply `i + 1` is at
index `i`. -/
def plySans {B C M : Type} (lib : ChessLib B C M) (bytes : List Nat)
    (start : Pos B C) : List String :=
  (mainLine lib bytes start).map (·.2)

/-- Threshold constant `MAX_MOVES_WITHOUT_REACHABILITY_CHECK` of
`get_move_after_match`. -/
def MAX_MOVES_WITHOUT_REACHABILITY_CHECK : Nat := 20

/-- Fuel-indexed embedding of the scan loop of `get_move_after_match`: decode
main-line moves one at a time; on a query match return the SAN of the next
decoded move (or the string of an asterisk when there is none); once more
than 20 moves have been decoded, every 10th move's position is additionally
checked for reachability of the query, and an unreachable position stops the
scan with no match.  One fuel unit per decoded move, so
`bytes.length + 1 - i` fuel suffices. -/
def gmamLoopFuel {B C M : Type} (lib : ChessLib B C M) [DecidableEq B]
    (bytes : List Nat) (q : PositionQuery B C) :
    Nat → Nat → Pos B C → Nat → Option String
  | 0, _, _, _ => none
  | f + 1, i, p, cnt =>
    match nextMove lib bytes i p with
    | none => none
    | some (i2, p2, _s) =>
      let cnt2 := cnt + 1
      if matchesB lib q p2 then
        match nextMove lib bytes i2 p2 with
        | some (_, _, s2) => some s2
        | none => some "*"
      else if MAX_MOVES_WITHOUT_REACHABILITY_CHECK < cnt2 ∧ cnt2 % 10 = 0 then
        if ¬ isReachableByB q (lib.materialCount p2.board) (lib.pawnHome p2.board) then
          none
        else gmamLoopFuel lib bytes q f i2 p2 cnt2
      else gmamLoopFuel lib bytes q f i2 p2 cnt2

/-- Scan loop of `get_move_after_match` from stream state `(i, p)` with move
counter `cnt`. -/
def gmamLoop {B C M : Type} (lib : ChessLib B C M) [DecidableEq B]
    (bytes : List Nat) (q : PositionQuery B C) (i : Nat) (p : Pos B C)
    (cnt : Nat) : Option String :=
  gmamLoopFuel lib bytes q (bytes.length + 1 - i) i p cnt

/-- Instrumented copy of `gmamLoopFuel` additionally reporting how many
main-line moves the loop decoded before returning; used to state how far the
scan progressed. -/
def gmamScanFuel {B C M : Type} (lib : ChessLib B C M) [DecidableEq B]
    (bytes : List Nat) (q : PositionQuery B C) :
    Nat → Nat → Pos B C → Nat → Option String × Nat
  | 0, _, _, cnt => (none, cnt)
  | f + 1, i, p, cnt =>
    match nextMove lib bytes i p with
    | none => (none, cnt)
    | some (i2, p2, _s) =>
      let cnt2 := cnt + 1
      if matchesB lib q p2 then
        match nextMove lib bytes i2 p2 with
        | some (_, _, s2) => (some s2, cnt2)
        | none => (some "*", cnt2)
      else if MAX_MOVES_WITHOUT_REACHABILITY_CHECK < cnt2 ∧ cnt2 % 10 = 0 then
        if ¬ isReachableByB q (lib.materialCount p2.board) (lib.pawnHome p2.board) then
          (none, cnt2)
        else gmamScanFuel lib bytes q f i2 p2 cnt2
      else gmamScanFuel lib bytes q f i2 p2 cnt2

/-- Instrumented scan with canonical fuel. -/
def gmamScan {B C M : Type} (lib : ChessLib B C M) [DecidableEq B]
    (bytes : List Nat) (q : PositionQuery B C) (i : Nat) (p : Pos B C)
    (cnt : Nat) : Option String × Nat :=
  gmamScanFuel lib bytes q (bytes.length + 1 - i) i p cnt

/-- Error kind raised by the search entry points when the game's starting FEN
does not parse into a legal position. -/
inductive SearchError where
  | fenError : SearchError
deriving DecidableEq

/-- Starting position of a game: the parsed FEN when one is recorded,
`Chess::default()` otherwise. -/
def startPosition {B C M : Type} (lib : ChessLib B C M) :
    Option String → Option (Pos B C)
  | some f => lib.parseFen f
  | none => some lib.defaultPos

/-- Embeds `get_move_after_match(move_blob, fen, query)`: build the start
position; if it already matches, answer with the first decoded move (the
asterisk string when the blob is empty, no match when the first move fails to
decode); otherwise run the scan loop. -/
def getMoveAfterMatch {B C M : Type} (lib : ChessLib B C M) [DecidableEq B]
    (bytes : List Nat) (fen : Option String) (q : PositionQuery B C) :
    Except SearchError (Option String) :=
  match startPosition lib fen with
  | none => .error .fenError
  | some start =>
    if matchesB lib q start then
      if bytes.isEmpty then .ok (some "*")
      else
        match nextMove lib bytes 0 start with
        | some (_, _, s) => .ok (some s)
        | none => .ok none
    else .ok (gmamLoop lib bytes q 0 start 0)

/-- Wrapping `u64` modulus. -/
def U64 : Nat := 2 ^ 64

/-- Embeds the `mix64` hashing step of `db/search.rs` over wrapping `u64`
arithmetic. -/
def mix64 (s v : Nat) : Nat :=
  let s1 := (s + v * 0x9E3779B97F4A7C15 % U64) % U64
  let s2 := s1 ^^^ (s1 >>> 30)
  let s3 := s2 * 0xBF58476D1CE4E5B9 % U64
  let s4 := s3 ^^^ (s3 >>> 27)
  let s5 := s4 * 0x94D049BB133111EB % U64
  s5 ^^^ (s5 >>> 31)

/-- Seed of `board_hash`. -/
def BOARD_HASH_SEED : Nat := 0x123456789ABCDEF0

/-- Embeds `board_hash(board)`: fold the twelve piece-by-colour bitboards, in
the source's order, through `mix64` starting from the seed. -/
def boardHash {B C M : Type} (lib : ChessLib B C M) (b : B) : Nat :=
  let white := lib.whiteBB b
  let black := lib.blackBB b
  let h0 := BOARD_HASH_SEED
  let h1 := mix64 h0 (lib.pawns b &&& white)
  let h2 := mix64 h1 (lib.pawns b &&& black)
  let h3 := mix64 h2 (lib.knights b &&& white)
  let h4 := mix64 h3 (lib.knights b &&& black)
  let h5 := mix64 h4 (lib.bishops b &&& white)
  let h6 := mix64 h5 (lib.bishops b &&& black)
  let h7 := mix64 h6 (lib.rooks b &&& white)
  let h8 := mix64 h7 (lib.rooks b &&& black)
  let h9 := mix64 h8 (lib.queens b &&& white)
  let h10 := mix64 h9 (lib.queens b &&& black)
  let h11 := mix64 h10 (lib.kings b &&& white)
  mix64 h11 (lib.kings b &&& black)

/-- Claim-side description of `board_hash`: a left fold of `mix64` over the
twelve bitboards in the order WP, BP, WN, BN, WB, BB, WR, BR, WQ, BQ, WK, BK
starting from the seed. -/
def boardHashSpec {B C M : Type} (lib : ChessLib B C M) (b : B) : Nat :=
  List.foldl mix64 BOARD_HASH_SEED
    [lib.pawns b &&& lib.whiteBB b, lib.pawns b &&& lib.blackBB b,
     lib.knights b &&& lib.whiteBB b, lib.knights b &&& lib.blackBB b,
     lib.bishops b &&& lib.whiteBB b, lib.bishops b &&& lib.blackBB b,
     lib.rooks b &&& lib.whiteBB b, lib.rooks b &&& lib.blackBB b,
     lib.queens b &&& lib.whiteBB b, lib.queens b &&& lib.blackBB b,
     lib.kings b &&& lib.whiteBB b, lib.kings b &&& lib.blackBB b]

/-- Side-to-move encoding of `position_hash_and_turn`: 0 for White, 1 for
Black. -/
def sideCode {B C : Type} (p : Pos B C) : Nat :=
  if p.turnWhite then 0 else 1

/-- Checkpoint stride: a row is recorded every `CHECKPOINT_STRIDE` plies. -/
def CHECKPOINT_STRIDE : Nat := 8

/-- Checkpoint row `(game_id, ply, board_hash, turn)` collected by
`build_position_checkpoints` (the `i64` column stores the `u64` hash value
reinterpreted; the hash is kept here as the underlying `u64`). -/
structure CheckpointRow where
  gameId : Int
  ply : Nat
  boardHash : Nat
  turn : Nat
deriving DecidableEq, Repr

/-- Fuel-indexed embedding of the per-game while-loop of
`build_position_checkpoints`: advance the move stream, count plies, and push
a row whenever the ply count is a multiple of the stride. -/
def checkpointLoopFuel {B C M : Type} (lib : ChessLib B C M) (bytes : List Nat)
    (gid : Int) : Nat → Nat → Pos B C → Nat → List CheckpointRow
  | 0, _, _, _ => []
  | f + 1, i, p, ply =>
    match nextMove lib bytes i p with
    | none => []
    | some (i2, p2, _s) =>
      let ply2 := ply + 1
      if ply2 % CHECKPOINT_STRIDE = 0 then
        ⟨gid, ply2, boardHash lib p2.board, sideCode p2⟩ ::
          checkpointLoopFuel lib bytes gid f i2 p2 ply2
      else checkpointLoopFuel lib bytes gid f i2 p2 ply2

/-- Checkpoint loop with canonical fuel. -/
def checkpointLoop {B C M : Type} (lib : ChessLib B C M) (bytes : List Nat)
    (gid : Int) (i : Nat) (p : Pos B C) (ply : Nat) : List CheckpointRow :=
  checkpointLoopFuel lib bytes gid (bytes.length + 1 - i) i p ply

/-- Embeds the per-game body of `build_position_checkpoints`: parse the start
position, record the ply-0 row, then walk the main line recording a row every
`CHECKPOINT_STRIDE` plies. -/
def checkpointRowsForGame {B C M : Type} (lib : ChessLib B C M) (gid : Int)
    (bytes : List Nat) (fen : Option String) :
    Except SearchError (List CheckpointRow) :=
  match startPosition lib fen with
  | none => .error .fenError
  | some start =>
    .ok (⟨gid, 0, boardHash lib start.board, sideCode start⟩ ::
      checkpointLoop lib bytes gid 0 start 0)

/-- Checkpoint row described by one enumerated main-line entry: a row when
the ply is a multiple of the stride, nothing otherwise. -/
def rowOf {B C M : Type} (lib : ChessLib B C M) (gid : Int)
    (kp : Nat × (Pos B C × String)) : Option CheckpointRow :=
  if kp.1 % CHECKPOINT_STRIDE = 0 then
    some ⟨gid, kp.1, boardHash lib kp.2.1.board, sideCode kp.2.1⟩
  else none

/-- Claim-side description of the checkpoint rows of one game: exactly one
row for ply 0 and one row for every later main-line ply that is a multiple of
the stride, each carrying the game id, the ply, the board hash of the
position and the 0/1 side code. -/
def checkpointRowsSpec {B C M : Type} (lib : ChessLib B C M) (gid : Int)
    (bytes : List Nat) (start : Pos B C) : List CheckpointRow :=
  ⟨gid, 0, boardHash lib start.board, sideCode start⟩ ::
    ((mainLine lib bytes start).enumFrom 1).filterMap (rowOf lib gid)

/-- Result of one iteration of the `MoveStream::next_move` loop under
release-mode Rust semantics where the `usize` index wraps modulo `2 ^ 64`:
either the loop body returns (with the move or with nothing), or it
continues at a new index. -/
inductive WrapStep (B C : Type) where
  | halt : Option (Nat × Pos B C × String) → WrapStep B C
  | cont : Nat → Pos B C → WrapStep B C
deriving DecidableEq

/-- One iteration of the `MoveStream::next_move` loop with the source's
`self.index += 9 + length` computed as wrapping `usize` (64-bit) arithmetic,
as compiled in release mode.  All other index increments are also reduced
modulo `2 ^ 64` (they are far too small to wrap in practice). -/
def nextMoveStepWrap {B C M : Type} (lib : ChessLib B C M) (bytes : List Nat)
    (i : Nat) (p : Pos B C) : WrapStep B C :=
  if i < bytes.length then
    let byte := bytes.getD i 0
    if byte = COMMENT then
      if bytes.length ≤ i + 8 then .halt none
      else .cont ((i + 9 + commentLen bytes i) % U64) p
    else if byte = NAG then .cont ((i + 2) % U64) p
    else if byte = START_VARIATION then .cont (skipVariation bytes (i + 1) 1 % U64) p
    else if byte = END_VARIATION then .cont ((i + 1) % U64) p
    else
      let lm := lib.legalMoves p
      if h : byte < lm.length then
        let sp := lib.sanPlay p (lm.get ⟨byte, h⟩)
        .halt (some ((i + 1) % U64, sp.2, sp.1))
      else .halt none
  else .halt none

/-- Iterate the wrapping loop step `n` times from a running state; a `halt`
is absorbing. -/
def iterWrap {B C M : Type} (lib : ChessLib B C M) (bytes : List Nat) :
    Nat → Nat → Pos B C → WrapStep B C
  | 0, i, p => .cont i p
  | n + 1, i, p =>
    match nextMoveStepWrap lib bytes i p with
    | .halt r => .halt r
    | .cont i2 p2 => iterWrap lib bytes n i2 p2

/-- Adversarial move blob: a COMMENT token followed by the big-endian bytes
of `2 ^ 64 - 9`.  On this input the release-mode index update
`index += 9 + length` wraps back to the same index (and the debug-mode
addition overflows and panics). -/
def overflowBlob : List Nat := [252, 255, 255, 255, 255, 255, 255, 255, 247]

/-- Statement of the per-step reachability claim, as claimed: the scan of
`get_move_after_match` checks reachability after every decoded move, so if
the position after some decoded move cannot reach the query target (and no
position up to that point matched), the function returns no match having
scanned no move beyond that one. -/
def C2ClaimStatement {B C M : Type} (lib : ChessLib B C M) [DecidableEq B]
    (bytes : List Nat) (fen : Option String) (q : PositionQuery B C) : Prop :=
  ∀ start, startPosition lib fen = some start →
    matchesB lib q start = false →
    ∀ k pr, (mainLine lib bytes start).get? k = some pr →
      (∀ j prj, (mainLine lib bytes start).get? j = some prj → j ≤ k →
        matchesB lib q prj.1 = false) →
      isReachableByB q (lib.materialCount pr.1.board) (lib.pawnHome pr.1.board) = false →
      getMoveAfterMatch lib bytes fen q = .ok none ∧
        (gmamScan lib bytes q 0 start 0).2 ≤ k + 1

/-- Concrete start position of the toy chess-library instance. -/
def toyStart : Pos Nat Nat := ⟨0, true, none, 0⟩

/-- Successor position of the toy instance: playing the unique legal move
increments the board counter and flips the side to move. -/
def toyStep (p : Pos Nat Nat) : Pos Nat Nat :=
  ⟨p.board + 1, !p.turnWhite, none, p.castling⟩

/-- Concrete chess-library instance used to evaluate the theorems on closed
inputs: boards are ply counters, there is always exactly one legal move
(index 0) whose SAN is the string m, and the white material decreases by one
per ply. -/
def toyLib : ChessLib Nat Nat Unit where
  defaultPos := toyStart
  parseFen := fun _ => some toyStart
  legalMoves := fun _ => [()]
  sanPlay := fun p _ => ("m", toyStep p)
  kings := fun _ => 0
  queens := fun _ => 0
  rooks := fun _ => 0
  bishops := fun _ => 0
  knights := fun _ => 0
  pawns := fun _ => 0
  whiteBB := fun _ => 0
  blackBB := fun _ => 0
  materialCount := fun b => ⟨100 - b, 100⟩
  pawnHome := fun _ => 0

/-- Exact query matching the toy start position. -/
def toyQueryStart : PositionQuery Nat Nat :=
  .exactQ ⟨0, ⟨100, 100⟩, toyStart⟩

/-- Exact query that matches no toy position and whose material target (100
white points) is unreachable from every position after ply 0. -/
def toyQueryNever1 : PositionQuery Nat Nat :=
  .exactQ ⟨0, ⟨100, 0⟩, ⟨999, true, none, 0⟩⟩

/-- Exact query that matches no toy position and whose material target (75
white points) becomes unreachable after ply 25. -/
def toyQueryNever25 : PositionQuery Nat Nat :=
  .exactQ ⟨0, ⟨75, 0⟩, ⟨999, true, none, 0⟩⟩

/-- Five-move toy blob. -/
def blob5 : List Nat := [0, 0, 0, 0, 0]

/-- Ten-move toy blob. -/
def blob10 : List Nat := List.replicate 10 0

/-- Forty-move toy blob. -/
def blob40 : List Nat := List.replicate 40 0

end Search

namespace Engine

/-- UCI score value (`vampirc_uci::uci::ScoreValue`): centipawns or mate
distance. -/
inductive ScoreValue where
  | cp : Int → ScoreValue
  | mate : Int → ScoreValue
deriving DecidableEq, Repr

/-- UCI score (`vampirc_uci::uci::Score`): a value, an optional win/draw/loss
triple, and the lower/upper bound flags (preserved untouched by
`invert_score` through the struct-update syntax). -/
structure Score where
  value : ScoreValue
  wdl : Option (Int × Int × Int)
  lowerbound : Bool
  upperbound : Bool
deriving DecidableEq, Repr

/-- Default score: centipawns zero, no wdl, no bound flags. -/
def Score.dflt : Score :=
  ⟨.cp 0, none, false, false⟩

instance : Inhabited Score := ⟨Score.dflt⟩

/-- Embeds `invert_score` of `engine/types.rs`: negate centipawns and mate
counts and reverse the wdl triple. -/
def invertScore (s : Score) : Score :=
  let newValue : ScoreValue :=
    match s.value with
    | .cp x => .cp (-x)
    | .mate x => .mate (-x)
  { s with value := newValue, wdl := s.wdl.map fun wdl => (wdl.2.2, wdl.2.1, wdl.1) }

/-- Best-line record (`BestMoves` in `engine/types.rs`).  `depth` is the
engine-reported depth, `multipv` the 1-based line rank. -/
structure BestMoves where
  nodes : Nat
  depth : Nat
  score : Score
  uciMoves : List String
  sanMoves : List String
  multipv : Nat
  nps : Nat
deriving DecidableEq, Repr

/-- Rust `Default` for `BestMoves` (`#[derivative(Default(value = "1"))]` on
`multipv`). -/
def BestMoves.dflt : BestMoves :=
  ⟨0, 0, Score.dflt, [], [], 1, 0⟩

instance : Inhabited BestMoves := ⟨BestMoves.dflt⟩

/-- Analysis-session state (`AnalysisState` in `engine/types.rs`).  The
`last_progress : f32` field is omitted: it is floating point and is never
read by the behaviour under verification. -/
structure AnalysisState where
  lastDepth : Nat
  bestMoves : List BestMoves
  lastBestMoves : List BestMoves
  realMultipv : Nat
deriving DecidableEq, Repr

/-- State after `AnalysisState::reset` followed by `set_multipv m` — how
`GameAnalysisService` and the engine manager start a session. -/
def AnalysisState.start (m : Nat) : AnalysisState :=
  ⟨0, [], [], m⟩

/-- Embeds the post-parse body of `AnalysisHandler::process_info_message`:
given the parsed `BestMoves` of one info line, update the session state and
possibly emit a complete payload.  With MultiPV 1 every line is emitted
immediately; otherwise lines are collected in rank order and emitted when the
set is complete, all of one depth, and not older than the last emitted
depth. -/
def processParsedInfo (st : AnalysisState) (bm : BestMoves) :
    AnalysisState × Option (List BestMoves) :=
  let multipv := bm.multipv
  let curDepth := bm.depth
  if st.realMultipv = 1 then
    let result := [bm]
    ({ st with lastBestMoves := result, lastDepth := curDepth }, some result)
  else if multipv = st.bestMoves.length + 1 then
    let pending := st.bestMoves ++ [bm]
    if multipv = st.realMultipv then
      if pending.all (fun x => x.depth = curDepth) ∧ st.lastDepth ≤ curDepth then
        let complete := pending
        ({ st with lastBestMoves := complete,
                   lastDepth := if st.lastDepth < curDepth then curDepth else st.lastDepth,
                   bestMoves := [] }, some complete)
      else ({ st with bestMoves := [] }, none)
    else ({ st with bestMoves := pending }, none)
  else if multipv = 1 then ({ st with bestMoves := [bm] }, none)
  else ({ st with bestMoves := [] }, none)

/-- Process the remaining info messages of a session from a given handler
state, accumulating the emitted payloads in order. -/
def runSessionFrom (st : AnalysisState) (out : List (List BestMoves)) :
    List BestMoves → AnalysisState × List (List BestMoves)
  | [] => (st, out)
  | bm :: rest =>
    let step := processParsedInfo st bm
    runSessionFrom step.1 (out ++ step.2.toList) rest

/-- Run a whole analysis session: fold the handler over the parsed info
messages, collecting the state and the emitted payloads in order. -/
def runSession (m : Nat) (msgs : List BestMoves) :
    AnalysisState × List (List BestMoves) :=
  runSessionFrom (AnalysisState.start m) [] msgs

/-- Emitted best-lines payloads of a session, in emission order. -/
def sessionEmits (m : Nat) (msgs : List BestMoves) : List (List BestMoves) :=
  (runSession m msgs).2

/-- Depth of a payload: the depth its lines share. -/
def payloadDepth (e : List BestMoves) : Nat :=
  (e.headD BestMoves.dflt).depth

/-- Statement of the emission claim, as claimed: every payload of a session
with effective MultiPV `m` has between 1 and `m` lines, all lines of a
payload share one depth, and payload depths never decrease across the
session. -/
def EmitClaimStatement : Prop :=
  ∀ (m : Nat) (msgs : List BestMoves), 1 ≤ m →
    (∀ e ∈ sessionEmits m msgs,
      1 ≤ e.length ∧ e.length ≤ m ∧ ∀ x ∈ e, x.depth = payloadDepth e) ∧
    List.Pairwise (fun a b => payloadDepth a ≤ payloadDepth b) (sessionEmits m msgs)

/-- UCI info attributes relevant to `parse_info_to_best_moves`
(`vampirc_uci::UciInfoAttribute`); every other attribute falls into the
ignored catch-all arm. -/
inductive UciInfoAttribute where
  | pv : List String → UciInfoAttribute
  | nps : Nat → UciInfoAttribute
  | nodes : Nat → UciInfoAttribute
  | depth : Nat → UciInfoAttribute
  | multipv : Nat → UciInfoAttribute
  | score : Score → UciInfoAttribute
  | other : UciInfoAttribute
deriving DecidableEq, Repr

/-- Error kinds surfaced by the info-line parser.  `moveError` stands for the
source's `UciMoveParsing`/`IllegalMove` conversions, `fenError` for
`FenParsing`/`PositionSetup`. -/
inductive EngErr where
  | fenError : EngErr
  | moveError : EngErr
  | noMovesFound : EngErr
deriving DecidableEq, Repr

/-- Chess-library operations consumed by the engine communication layer.
`uciToMove` collapses `UciMove::from_ascii`/`parse` followed by
`uci.to_move(&pos)` (either failure makes the whole parse fail);
`play` is `play_unchecked`; `san` is the SAN of the move in the given
position. -/
structure UciLib (P M : Type) where
  parseFen : String → Option P
  uciToMove : P → String → Option M
  play : P → M → P
  san : P → M → String
  turnWhite : P → Bool

/-- Replay the played-move list on the parsed starting position, as done at
the top of `parse_info_to_best_moves`. -/
def replayMoves {P M : Type} (lib : UciLib P M) : P → List String → Option P
  | p, [] => some p
  | p, mv :: rest =>
    match lib.uciToMove p mv with
    | some m => replayMoves lib (lib.play p m) rest
    | none => none

/-- Walk one PV attribute: convert each UCI move in the running temporary
position, recording SAN and UCI forms in the accumulating `BestMoves`. -/
def pvFold {P M : Type} (lib : UciLib P M) :
    P → BestMoves → List String → Except EngErr BestMoves
  | _, bm, [] => .ok bm
  | p, bm, mv :: rest =>
    match lib.uciToMove p mv with
    | none => .error .moveError
    | some m =>
      let sanStr := lib.san p m
      pvFold lib (lib.play p m)
        { bm with sanMoves := bm.sanMoves ++ [sanStr], uciMoves := bm.uciMoves ++ [mv] } rest

/-- Fold of the attribute loop of `parse_info_to_best_moves`: each PV
attribute is walked from a fresh copy of the analysis position; nps, nodes,
depth, multipv and score overwrite the corresponding fields; everything else
is ignored.  The boolean records whether a PV attribute was seen. -/
def processAttrs {P M : Type} (lib : UciLib P M) (pos : P) :
    BestMoves → Bool → List UciInfoAttribute → Except EngErr (BestMoves × Bool)
  | bm, hasPv, [] => .ok (bm, hasPv)
  | bm, hasPv, a :: rest =>
    match a with
    | .pv moves =>
      match pvFold lib pos bm moves with
      | .error e => .error e
      | .ok bm2 => processAttrs lib pos bm2 true rest
    | .nps n => processAttrs lib pos { bm with nps := n } hasPv rest
    | .nodes n => processAttrs lib pos { bm with nodes := n } hasPv rest
    | .depth d => processAttrs lib pos { bm with depth := d } hasPv rest
    | .multipv m => processAttrs lib pos { bm with multipv := m } hasPv rest
    | .score s => processAttrs lib pos { bm with score := s } hasPv rest
    | .other => processAttrs lib pos bm hasPv rest

/-- Embeds `parse_info_to_best_moves(attrs, fen, moves)` of
`engine/communication.rs`: parse the FEN, replay the played moves, fold the
attributes, fail with `NoMovesFound` when no PV move was collected, and
normalise the score to White's perspective by inverting it when the side to
move at the start of the PV is Black. -/
def parseInfoToBestMoves {P M : Type} (lib : UciLib P M)
    (attrs : List UciInfoAttribute) (fen : String) (moves : List String) :
    Except EngErr BestMoves :=
  match lib.parseFen fen with
  | none => .error .fenError
  | some p0 =>
    match replayMoves lib p0 moves with
    | none => .error .moveError
    | some pos =>
      match processAttrs lib pos BestMoves.dflt false attrs with
      | .error e => .error e
      | .ok (bm, hasPv) =>
        if ¬ hasPv ∨ bm.sanMoves = [] then .error .noMovesFound
        else if lib.turnWhite pos then .ok bm
        else .ok { bm with score := invertScore bm.score }

/-- All PV moves carried by an attribute list, in order. -/
def pvMovesOf : List UciInfoAttribute → List String
  | [] => []
  | .pv ms :: rest => ms ++ pvMovesOf rest
  | _ :: rest => pvMovesOf rest

/-- Raw score carried by an attribute list: the last score attribute wins,
defaulting to the default score. -/
def lastScore (attrs : List UciInfoAttribute) : Score :=
  attrs.foldl (fun s a => match a with | .score sc => sc | _ => s) Score.dflt

/-- Parsed info line with depth `d` and rank `pv`, other fields default. -/
def bmOf (d pv : Nat) : BestMoves :=
  { BestMoves.dflt with depth := d, multipv := pv }

/-- Concrete chess-library instance for the info-line parser: positions are
the side to move, every UCI string is a legal move flipping the side, SAN is
the string x. -/
def toyUci : UciLib Bool Unit where
  parseFen := fun _ => some true
  uciToMove := fun _ _ => some ()
  play := fun p _ => !p
  san := fun _ _ => "x"
  turnWhite := fun p => p

/-- Concrete score with distinct centipawn value and wdl triple. -/
def demoScore : Score := ⟨.cp 37, some (10, 20, 30), false, false⟩

end Engine

namespace EngineStop

/-- Engine operational states (`EngineState` in `engine/types.rs`). -/
inductive EngState where
  | idle : EngState
  | initializing : EngState
  | analyzing : EngState
  | stopping : EngState
  | terminated : EngState
deriving DecidableEq, Repr

/-- Error kinds that can flow through the stop path (`EngineError`),
collapsed to the constructors the control flow distinguishes. -/
inductive StopErr where
  | stopTimeout : StopErr
  | brokenPipe : StopErr
  | ioErr : StopErr
  | invalidState : StopErr
  | invalidTransition : EngState → EngState → StopErr
deriving DecidableEq, Repr

/-- Outcome of one `send_command` attempt. -/
inductive SendOutcome where
  | ok : SendOutcome
  | brokenPipe : SendOutcome
  | ioErr : SendOutcome
deriving DecidableEq, Repr

/-- Environment answers for one suspension point of the stop flow: whether
`try_wait` reports the subprocess alive, how a write to its stdin fares,
whether the awaited state change to `Idle` happens within the deadline, and
whether the concurrently running supervisor delivers a `bestmove` (driving
`handle_bestmove`, i.e. a transition to `Idle`) while the flow is
suspended. -/
structure OracleStep where
  alive : Bool
  send : SendOutcome
  waitIdle : Bool
  ext : Bool
deriving DecidableEq, Repr

/-- Environment of one `stop` call: the answer used at the `n`-th suspension
or probe point. -/
def Oracle : Type := Nat → OracleStep

/-- Machine state threaded through the model: the engine state and the
oracle cursor. -/
structure StopSt where
  state : EngState
  t : Nat
deriving DecidableEq, Repr

/-- Embeds `transition_state`: the valid-transition table of
`engine/process.rs`; an invalid transition is an error and leaves the state
unchanged. -/
def transitionState (s target : EngState) : Except StopErr EngState :=
  let valid :=
    match s, target with
    | .idle, .analyzing => true
    | .analyzing, .stopping => true
    | .stopping, .idle => true
    | .analyzing, .idle => true
    | _, .terminated => true
    | _, _ => false
  if valid then .ok target else .error (.invalidTransition s target)

/-- External `handle_bestmove` effect while the flow is suspended: a
`bestmove` line makes the supervisor transition the state to `Idle`, which
succeeds exactly from `Analyzing` or `Stopping`. -/
def applyExt (b : Bool) (s : EngState) : EngState :=
  if b ∧ (s = .analyzing ∨ s = .stopping) then .idle else s

/-- Model of `send_command` (an awaited stdin write): consumes one oracle
step; the supervisor may deliver a bestmove during the await; the write
succeeds or fails with a broken pipe or another I/O error. -/
def sendCommand (o : Oracle) (σ : StopSt) : Except StopErr Unit × StopSt :=
  let step := o σ.t
  let s2 : StopSt := ⟨applyExt step.ext σ.state, σ.t + 1⟩
  match step.send with
  | .ok => (.ok (), s2)
  | .brokenPipe => (.error .brokenPipe, s2)
  | .ioErr => (.error .ioErr, s2)

/-- Model of `is_process_alive` (synchronous `try_wait`, no suspension):
consumes one oracle step for the aliveness answer. -/
def isProcessAlive (o : Oracle) (σ : StopSt) : Bool × StopSt :=
  ((o σ.t).alive, ⟨σ.state, σ.t + 1⟩)

/-- Model of an awaited `sleep`: the supervisor may deliver a bestmove
meanwhile. -/
def sleepStep (o : Oracle) (σ : StopSt) : StopSt :=
  ⟨applyExt (o σ.t).ext σ.state, σ.t + 1⟩

/-- Model of `wait_for_state(Idle, deadline)` (with its outer `timeout`
collapsed into one outcome): an immediate success if the state is already
`Idle`; otherwise one oracle step decides whether the state becomes `Idle`
within the deadline; on a timeout a bestmove arriving right at the deadline
may still have flipped the state. -/
def waitForIdle (o : Oracle) (σ : StopSt) : Except StopErr Unit × StopSt :=
  if σ.state = .idle then (.ok (), σ)
  else
    let step := o σ.t
    if step.waitIdle then (.ok (), ⟨.idle, σ.t + 1⟩)
    else (.error .invalidState, ⟨applyExt step.ext σ.state, σ.t + 1⟩)

/-- Recursion of `send_stop_command_with_retry` over the remaining attempts
(`MAX_STOP_RETRIES = 3`): a successful write returns; a broken pipe returns
the broken-pipe error without retrying; any other error checks the process
(a dead process is reported as a broken pipe), sleeps and retries, and after
the last attempt returns the last error. -/
def sendStopRetryGo (o : Oracle) : Nat → StopSt → Except StopErr Unit × StopSt
  | 0, σ => (.error .ioErr, σ)
  | n + 1, σ =>
    let r := sendCommand o σ
    match r.1 with
    | .ok _ => (.ok (), r.2)
    | .error .brokenPipe => (.error .brokenPipe, r.2)
    | .error _ =>
      let al := isProcessAlive o r.2
      if ¬ al.1 then (.error .brokenPipe, al.2)
      else if n = 0 then (.error .ioErr, al.2)
      else sendStopRetryGo o n (sleepStep o al.2)

/-- Embeds `send_stop_command_with_retry` with its three attempts. -/
def sendStopRetry (o : Oracle) (σ : StopSt) : Except StopErr Unit × StopSt :=
  sendStopRetryGo o 3 σ

/-- Waiting phase of `wait_for_stop_with_fallback`: await the quick stop; on
failure, if the process is alive re-send the stop command for stubborn
engines and await again with the remaining deadline (concluding with
`StopTimeout` if the state never reached `Idle`); if the process died during
the quick stop attempt, force the transition to `Idle`. -/
def stopWaitPhase (o : Oracle) (σ : StopSt) : Except StopErr Unit × StopSt :=
  let w1 := waitForIdle o σ
  match w1.1 with
  | .ok _ => (.ok (), w1.2)
  | .error _ =>
    let al2 := isProcessAlive o w1.2
    if al2.1 then
      let r2 := sendStopRetry o al2.2
      let w2 := waitForIdle o r2.2
      match w2.1 with
      | .ok _ => (.ok (), w2.2)
      | .error _ => (.error .stopTimeout, w2.2)
    else
      match transitionState al2.2.state .idle with
      | .ok st2 => (.ok (), ⟨st2, al2.2.t⟩)
      | .error e => (.error e, al2.2)

/-- Embeds `wait_for_stop_with_fallback`: send the stop command (on a send
failure with a dead process, force `Idle` and finish), then run the waiting
phase. -/
def waitForStopFallback (o : Oracle) (σ : StopSt) : Except StopErr Unit × StopSt :=
  let r1 := sendStopRetry o σ
  match r1.1 with
  | .error _ =>
    let al := isProcessAlive o r1.2
    if ¬ al.1 then
      match transitionState al.2.state .idle with
      | .ok st2 => (.ok (), ⟨st2, al.2.t⟩)
      | .error e => (.error e, al.2)
    else stopWaitPhase o al.2
  | .ok _ => stopWaitPhase o r1.2

/-- Embeds `EngineProcess::stop` called in the `Analyzing` state (so the
`is_running` guard passes): if the process is already dead, transition to
`Idle`; otherwise transition to `Stopping`, run the staged stop and, on any
staged-stop error, force the transition to `Idle` (when not already there)
and swallow the error. -/
def stopModel (o : Oracle) : Except StopErr Unit × EngState :=
  let σ0 : StopSt := ⟨.analyzing, 0⟩
  let al0 := isProcessAlive o σ0
  if ¬ al0.1 then
    match transitionState al0.2.state .idle with
    | .ok st2 => (.ok (), st2)
    | .error e => (.error e, al0.2.state)
  else
    match transitionState al0.2.state .stopping with
    | .error e => (.error e, al0.2.state)
    | .ok st1 =>
      let r := waitForStopFallback o ⟨st1, al0.2.t⟩
      match r.1 with
      | .ok _ => (.ok (), r.2.state)
      | .error _ =>
        if r.2.state ≠ .idle then
          match transitionState r.2.state .idle with
          | .ok st2 => (.ok (), st2)
          | .error e => (.error e, r.2.state)
        else (.ok (), r.2.state)

end EngineStop

namespace Eval

/-- Piece roles of the chess library. -/
inductive Role where
  | pawn : Role
  | knight : Role
  | bishop : Role
  | rook : Role
  | queen : Role
  | king : Role
deriving DecidableEq, Repr

/-- Embeds `piece_value` of `chess/evaluation.rs` (the catch-all arm maps the
king to 0). -/
def pieceValue : Role → Int
  | .pawn => 90
  | .knight => 300
  | .bishop => 300
  | .rook => 500
  | .queen => 1000
  | .king => 0

/-- Piece counts of one colour, as read from `board().material()`. -/
structure PieceCnt where
  pawn : Nat
  knight : Nat
  bishop : Nat
  rook : Nat
  queen : Nat
deriving DecidableEq, Repr

/-- Material value of one colour's piece counts, as summed by
`count_material`. -/
def matVal (c : PieceCnt) : Int :=
  (c.pawn : Int) * pieceValue .pawn + (c.knight : Int) * pieceValue .knight +
  (c.bishop : Int) * pieceValue .bishop + (c.rook : Int) * pieceValue .rook +
  (c.queen : Int) * pieceValue .queen

/-- Game position abstraction for the static evaluator: whether the position
is checkmate, the two colours' piece counts, the side to move, and the legal
moves, each carrying the captured role (if the move is a capture) and the
resulting position.  The structure is the game tree the chess library
exposes to `qsearch`/`naive_eval` through `legal_moves`, `is_capture`,
`capture` and `play_unchecked`. -/
inductive GamePos where
  | node : Bool → PieceCnt → PieceCnt → Bool → List (Option Role × GamePos) → GamePos

/-- Checkmate flag of the position. -/
def GamePos.isCheckmate : GamePos → Bool
  | .node cm _ _ _ _ => cm

/-- White piece counts. -/
def GamePos.white : GamePos → PieceCnt
  | .node _ w _ _ _ => w

/-- Black piece counts. -/
def GamePos.black : GamePos → PieceCnt
  | .node _ _ b _ _ => b

/-- Side to move (true for White). -/
def GamePos.turnWhiteSide : GamePos → Bool
  | .node _ _ _ t _ => t

/-- Legal moves: the captured role (none for a quiet move) together with the
position after the move. -/
def GamePos.legalMoves : GamePos → List (Option Role × GamePos)
  | .node _ _ _ _ ms => ms

/-- Embeds `count_material` of `chess/evaluation.rs`: a large negative value
on checkmate, else the signed material balance from the side to move's
view. -/
def countMaterial (p : GamePos) : Int :=
  if p.isCheckmate then -10000
  else
    let w := matVal p.white
    let b := matVal p.black
    if p.turnWhiteSide then w - b else b - w

/-- Victim value of a move for the capture ordering
(`piece_value(m.capture().unwrap())`). -/
def victimVal (m : Option Role × GamePos) : Int :=
  match m.1 with
  | some r => pieceValue r
  | none => 0

/-- Stable insertion of one element into a sorted list: `le x y = true`
places `x` before `y`, ties keep the original order. -/
def insertBy {α : Type} (le : α → α → Bool) (x : α) : List α → List α
  | [] => [x]
  | y :: ys => if le x y then x :: y :: ys else y :: insertBy le x ys

/-- Stable insertion sort; any stable sort computes the same list as Rust's
stable `sort_by`, and this one is structurally recursive so it evaluates in
the kernel. -/
def stableSortBy {α : Type} (le : α → α → Bool) : List α → List α
  | [] => []
  | x :: xs => insertBy le x (stableSortBy le xs)

/-- Captures of a position sorted by victim value descending, as in
`qsearch` (`captures.sort_by(|a, b| b_value.cmp(&a_value))`, a stable
descending sort). -/
def sortedCaptures (p : GamePos) : List (Option Role × GamePos) :=
  stableSortBy (fun a b => victimVal b ≤ victimVal a)
    (p.legalMoves.filter (fun m => m.1.isSome))

/-- Rust `i32::MIN`. -/
def I32_MIN : Int := -2147483648

/-- Rust `i32::MAX`. -/
def I32_MAX : Int := 2147483647

/-- Body of the capture loop of `qsearch`, expressed as a fold with a
latched beta-cutoff flag: once a capture scores at least beta the loop has
returned beta and later captures are ignored. -/
def qStep (qs : GamePos → Int → Int → Int) (beta : Int) (acc : Int × Bool)
    (c : Option Role × GamePos) : Int × Bool :=
  if acc.2 then acc
  else
    let score := -(qs c.2 (-beta) (-acc.1))
    if beta ≤ score then (beta, true)
    else (if acc.1 < score then score else acc.1, false)

/-- Fuel-indexed embedding of `qsearch(pos, alpha, beta)` of
`chess/evaluation.rs`: stand-pat on the material count, then a negamax
alpha-beta walk over the captures sorted by victim value.  In the Rust code
the recursion terminates because every capture removes a piece; the fuel
makes that termination explicit, and all theorems hold for every fuel
value. -/
def qsearchFuel : Nat → GamePos → Int → Int → Int
  | 0, p, alpha, beta =>
    let standPat := countMaterial p
    if beta ≤ standPat then beta
    else if alpha < standPat then standPat else alpha
  | f + 1, p, alpha, beta =>
    let standPat := countMaterial p
    if beta ≤ standPat then beta
    else
      let alpha1 := if alpha < standPat then standPat else alpha
      ((sortedCaptures p).foldl (qStep (qsearchFuel f) beta) (alpha1, false)).1

/-- Fuel-indexed embedding of `naive_eval(pos)`: over all legal moves, play
and take the negated quiescence value with the full window; the maximum, or
`i32::MIN` when there is no legal move. -/
def naiveEvalFuel (f : Nat) (p : GamePos) : Int :=
  ((p.legalMoves.map (fun mv => -(qsearchFuel f mv.2 I32_MIN I32_MAX))).max?).getD I32_MIN

/-- Terminal demo position: no material, no moves, not checkmate. -/
def demoLeaf : GamePos := .node false ⟨0, 0, 0, 0, 0⟩ ⟨0, 0, 0, 0, 0⟩ true []

/-- Demo position with one capture and one quiet move. -/
def demoPos : GamePos :=
  .node false ⟨1, 0, 0, 0, 0⟩ ⟨0, 0, 0, 0, 0⟩ true
    [(some .pawn, demoLeaf), (none, demoLeaf)]

end Eval

namespace Search

theorem skipVarFuel_ge (bytes : List Nat) :
    ∀ f i d, i ≤ skipVarFuel bytes f i d := by
  intro f
  induction f with
  | zero => intro i d; simp [skipVarFuel]
  | succ f ih =>
    intro i d
    simp only [skipVarFuel]
    split
    · exact le_trans (Nat.le_succ i) (ih (i + 1) _)
    · exact le_refl i

theorem skipVariation_ge (bytes : List Nat) (i d : Nat) :
    i ≤ skipVariation bytes i d :=
  skipVarFuel_ge bytes _ i d

theorem nextMoveFuel_some_lt {B C M : Type} (lib : ChessLib B C M) (bytes : List Nat) :
    ∀ f i p r, nextMoveFuel lib bytes f i p = some r →
      i < r.1 ∧ i < bytes.length ∧ r.1 ≤ bytes.length := by
  intro f
  induction f with
  | zero => intro i p r h; simp [nextMoveFuel] at h
  | succ f ih =>
    intro i p r h
    simp only [nextMoveFuel] at h
    split at h
    case isFalse => simp at h
    case isTrue hi =>
      have main : i < r.1 ∧ r.1 ≤ bytes.length := by
        split at h
        · -- COMMENT
          split at h
          · simp at h
          · have := ih _ p r h
            omega
        · split at h
          · -- NAG
            have := ih _ p r h
            omega
          · split at h
            · -- START_VARIATION
              have h1 := ih _ p r h
              have h2 := skipVariation_ge bytes (i + 1) 1
              omega
            · split at h
              · -- END_VARIATION
                have := ih _ p r h
                omega
              · -- move byte
                split at h
                · cases h
                  exact ⟨by omega, by omega⟩
                · simp at h
      exact ⟨main.1, hi, main.2⟩

theorem nextMove_some_lt {B C M : Type} (lib : ChessLib B C M) (bytes : List Nat)
    (i : Nat) (p : Pos B C) (r : Nat × Pos B C × String)
    (h : nextMove lib bytes i p = some r) :
    i < r.1 ∧ i < bytes.length ∧ r.1 ≤ bytes.length :=
  nextMoveFuel_some_lt lib bytes _ i p r h

theorem nextMoveFuel_congr {B C M : Type} (lib : ChessLib B C M) (bytes : List Nat) :
    ∀ f1 f2 i p, bytes.length - i ≤ f1 → bytes.length - i ≤ f2 →
      nextMoveFuel lib bytes f1 i p = nextMoveFuel lib bytes f2 i p := by
  intro f1
  induction f1 with
  | zero =>
    intro f2 i p h1 h2
    have hi : ¬ i < bytes.length := by omega
    cases f2 with
    | zero => rfl
    | succ f2 => simp [nextMoveFuel, hi]
  | succ f1 ih =>
    intro f2 i p h1 h2
    cases f2 with
    | zero =>
      have hi : ¬ i < bytes.length := by omega
      simp [nextMoveFuel, hi]
    | succ f2 =>
      simp only [nextMoveFuel]
      split
      case isTrue hi =>
        split
        · split
          · rfl
          · exact ih f2 _ p (by omega) (by omega)
        · split
          · exact ih f2 _ p (by omega) (by omega)
          · split
            · have := skipVariation_ge bytes (i + 1) 1
              exact ih f2 _ p (by omega) (by omega)
            · split
              · exact ih f2 _ p (by omega) (by omega)
              · rfl
      case isFalse => rfl

theorem nextMoveFuel_eq_nextMove {B C M : Type} (lib : ChessLib B C M) (bytes : List Nat)
    (f i : Nat) (p : Pos B C) (h : bytes.length - i ≤ f) :
    nextMoveFuel lib bytes f i p = nextMove lib bytes i p :=
  nextMoveFuel_congr lib bytes f (bytes.length - i) i p h (le_refl _)

theorem nextMove_none_of_past {B C M : Type} (lib : ChessLib B C M) (bytes : List Nat)
    (i : Nat) (p : Pos B C) (h : ¬ i < bytes.length) :
    nextMove lib bytes i p = none := by
  have h0 : bytes.length - i = 0 := by omega
  rw [nextMove, h0]
  rfl

theorem mainLineFuel_congr {B C M : Type} (lib : ChessLib B C M) (bytes : List Nat) :
    ∀ f1 f2 i p, bytes.length - i < f1 → bytes.length - i < f2 →
      mainLineFuel lib bytes f1 i p = mainLineFuel lib bytes f2 i p := by
  intro f1
  induction f1 with
  | zero => intro f2 i p h1 h2; omega
  | succ f1 ih =>
    intro f2 i p h1 h2
    cases f2 with
    | zero => omega
    | succ f2 =>
      simp only [mainLineFuel]
      cases h : nextMove lib bytes i p with
      | none => rfl
      | some r =>
        obtain ⟨i2, p2, s⟩ := r
        have hlt := nextMove_some_lt lib bytes i p _ h
        simp only []
        congr 1
        exact ih f2 i2 p2 (by omega) (by omega)

theorem mainLineFrom_unfold {B C M : Type} (lib : ChessLib B C M) (bytes : List Nat)
    (i : Nat) (p : Pos B C) :
    mainLineFrom lib bytes i p =
      match nextMove lib bytes i p with
      | none => []
      | some (i2, p2, s) => (p2, s) :: mainLineFrom lib bytes i2 p2 := by
  by_cases h0 : bytes.length + 1 - i = 0
  · have hn : nextMove lib bytes i p = none :=
      nextMove_none_of_past lib bytes i p (by omega)
    show mainLineFuel lib bytes (bytes.length + 1 - i) i p = _
    rw [h0, hn]
    rfl
  · obtain ⟨f, hf⟩ := Nat.exists_eq_succ_of_ne_zero h0
    show mainLineFuel lib bytes (bytes.length + 1 - i) i p = _
    rw [hf]
    simp only [mainLineFuel]
    cases h : nextMove lib bytes i p with
    | none => rfl
    | some r =>
      obtain ⟨i2, p2, s⟩ := r
      have hlt := nextMove_some_lt lib bytes i p _ h
      simp only []
      congr 1
      exact mainLineFuel_congr lib bytes f (bytes.length + 1 - i2) i2 p2 (by omega) (by omega)

theorem gmamLoopFuel_some {B C M : Type} (lib : ChessLib B C M) [DecidableEq B]
    (bytes : List Nat) (q : PositionQuery B C) :
    ∀ f i p cnt m, gmamLoopFuel lib bytes q f i p cnt = some m →
      ∃ k pr, (mainLineFrom lib bytes i p).get? k = some pr ∧
        matchesB lib q pr.1 = true ∧
        ((∃ pr2, (mainLineFrom lib bytes i p).get? (k + 1) = some pr2 ∧ m = pr2.2) ∨
         ((mainLineFrom lib bytes i p).get? (k + 1) = none ∧ m = "*")) := by
  intro f
  induction f with
  | zero => intro i p cnt m h; simp [gmamLoopFuel] at h
  | succ f ih =>
    intro i p cnt m h
    simp only [gmamLoopFuel] at h
    rw [mainLineFrom_unfold lib bytes i p]
    cases hnm : nextMove lib bytes i p with
    | none => rw [hnm] at h; simp at h
    | some r =>
      obtain ⟨i2, p2, s⟩ := r
      rw [hnm] at h
      simp only [] at h
      split at h
      case isTrue hm =>
        cases hnm2 : nextMove lib bytes i2 p2 with
        | some r2 =>
          obtain ⟨i3, p3, s3⟩ := r2
          rw [hnm2] at h
          simp only [Option.some.injEq] at h
          refine ⟨0, (p2, s), rfl, hm, .inl ⟨(p3, s3), ?_, h.symm⟩⟩
          show (mainLineFrom lib bytes i2 p2).get? 0 = some (p3, s3)
          rw [mainLineFrom_unfold lib bytes i2 p2, hnm2]
          rfl
        | none =>
          rw [hnm2] at h
          simp only [Option.some.injEq] at h
          refine ⟨0, (p2, s), rfl, hm, .inr ⟨?_, h.symm⟩⟩
          show (mainLineFrom lib bytes i2 p2).get? 0 = none
          rw [mainLineFrom_unfold lib bytes i2 p2, hnm2]
          rfl
      case isFalse hm =>
        have step : gmamLoopFuel lib bytes q f i2 p2 (cnt + 1) = some m := by
          split at h
          · split at h
            · simp at h
            · exact h
          · exact h
        obtain ⟨k, pr, h1, h2, h3⟩ := ih i2 p2 (cnt + 1) m step
        refine ⟨k + 1, pr, by simpa using h1, h2, ?_⟩
        rcases h3 with ⟨pr2, h4, h5⟩ | ⟨h4, h5⟩
        · exact .inl ⟨pr2, by simpa using h4, h5⟩
        · exact .inr ⟨by simpa using h4, h5⟩

theorem checkpointLoopFuel_eq {B C M : Type} (lib : ChessLib B C M) (bytes : List Nat)
    (gid : Int) :
    ∀ f i p ply, bytes.length - i < f →
      checkpointLoopFuel lib bytes gid f i p ply =
        ((mainLineFrom lib bytes i p).enumFrom (ply + 1)).filterMap (rowOf lib gid) := by
  intro f
  induction f with
  | zero => intro i p ply h; omega
  | succ f ih =>
    intro i p ply h
    simp only [checkpointLoopFuel]
    cases hnm : nextMove lib bytes i p with
    | none =>
      rw [mainLineFrom_unfold lib bytes i p, hnm]
      rfl
    | some r =>
      obtain ⟨i2, p2, s⟩ := r
      simp only []
      have hlt := nextMove_some_lt lib bytes i p _ hnm
      have hML : mainLineFrom lib bytes i p = (p2, s) :: mainLineFrom lib bytes i2 p2 := by
        rw [mainLineFrom_unfold lib bytes i p, hnm]
      rw [hML]
      have henum : ((p2, s) :: mainLineFrom lib bytes i2 p2).enumFrom (ply + 1)
          = (ply + 1, (p2, s)) :: (mainLineFrom lib bytes i2 p2).enumFrom (ply + 1 + 1) := rfl
      rw [henum, List.filterMap_cons, ih i2 p2 (ply + 1) (by omega)]
      by_cases hc : (ply + 1) % CHECKPOINT_STRIDE = 0
      · rw [if_pos hc]
        have hrow : rowOf lib gid (ply + 1, (p2, s))
            = some ⟨gid, ply + 1, boardHash lib p2.board, sideCode p2⟩ := by
          simp [rowOf, hc]
        rw [hrow]
      · rw [if_neg hc]
        have hrow : rowOf lib gid (ply + 1, (p2, s)) = none := by
          simp [rowOf, hc]
        rw [hrow]

theorem checkpointLoopFuel_plies {B C M : Type} (lib : ChessLib B C M) (bytes : List Nat)
    (gid : Int) :
    ∀ f i p ply,
      (∀ r ∈ checkpointLoopFuel lib bytes gid f i p ply, ply < r.ply) ∧
        List.Pairwise (fun a b => a.ply < b.ply) (checkpointLoopFuel lib bytes gid f i p ply) := by
  intro f
  induction f with
  | zero => intro i p ply; simp [checkpointLoopFuel]
  | succ f ih =>
    intro i p ply
    simp only [checkpointLoopFuel]
    cases hnm : nextMove lib bytes i p with
    | none => simp
    | some r =>
      obtain ⟨i2, p2, s⟩ := r
      simp only []
      have hrest := ih i2 p2 (ply + 1)
      by_cases hc : (ply + 1) % CHECKPOINT_STRIDE = 0
      · rw [if_pos hc]
        constructor
        · intro r hr
          rcases List.mem_cons.mp hr with hr0 | hr1
          · subst hr0; simp
          · have := hrest.1 r hr1
            omega
        · refine List.Pairwise.cons ?_ hrest.2
          intro r hr
          have := hrest.1 r hr
          simp only []
          omega
      · rw [if_neg hc]
        constructor
        · intro r hr
          have := hrest.1 r hr
          omega
        · exact hrest.2

theorem gmamScanFuel_unreachable {B C M : Type} (lib : ChessLib B C M) [DecidableEq B]
    (bytes : List Nat) (q : PositionQuery B C) (mt : Nat)
    (h20 : MAX_MOVES_WITHOUT_REACHABILITY_CHECK < mt) (h10 : mt % 10 = 0) :
    ∀ f i p cnt,
      cnt < mt →
      (∀ k pr, (mainLineFrom lib bytes i p).get? k = some pr → cnt + 1 + k ≤ mt →
        matchesB lib q pr.1 = false) →
      (∀ pr, (mainLineFrom lib bytes i p).get? (mt - cnt - 1) = some pr →
        isReachableByB q (lib.materialCount pr.1.board) (lib.pawnHome pr.1.board) = false) →
      (gmamScanFuel lib bytes q f i p cnt).1 = none ∧
        (gmamScanFuel lib bytes q f i p cnt).2 ≤ mt := by
  intro f
  induction f with
  | zero =>
    intro i p cnt hcnt _ _
    refine ⟨rfl, ?_⟩
    show cnt ≤ mt
    omega
  | succ f ih =>
    intro i p cnt hcnt hmatch hreach
    simp only [gmamScanFuel]
    cases hnm : nextMove lib bytes i p with
    | none =>
      refine ⟨rfl, ?_⟩
      show cnt ≤ mt
      omega
    | some r =>
      obtain ⟨i2, p2, s⟩ := r
      simp only []
      have hML : mainLineFrom lib bytes i p = (p2, s) :: mainLineFrom lib bytes i2 p2 := by
        rw [mainLineFrom_unfold lib bytes i p, hnm]
      have hm0 : matchesB lib q p2 = false := by
        apply hmatch 0 (p2, s)
        · rw [hML]; rfl
        · omega
      have hstep : ∀ hc : cnt + 1 < mt,
          (gmamScanFuel lib bytes q f i2 p2 (cnt + 1)).1 = none ∧
            (gmamScanFuel lib bytes q f i2 p2 (cnt + 1)).2 ≤ mt := by
        intro hc
        apply ih i2 p2 (cnt + 1) hc
        · intro k pr hpr hk
          apply hmatch (k + 1) pr
          · rw [hML]
            simpa using hpr
          · omega
        · intro pr hpr
          apply hreach pr
          rw [hML]
          have harith : mt - cnt - 1 = (mt - (cnt + 1) - 1) + 1 := by omega
          rw [harith]
          simpa using hpr
      split
      case isTrue hm => rw [hm0] at hm; simp at hm
      case isFalse =>
        split
        case isTrue hchk =>
          split
          case isTrue hunreach =>
            refine ⟨rfl, ?_⟩
            show cnt + 1 ≤ mt
            omega
          case isFalse hreach2 =>
            have hne : cnt + 1 ≠ mt := by
              intro he
              have h0 : (mainLineFrom lib bytes i p).get? (mt - cnt - 1) = some (p2, s) := by
                rw [hML]
                have : mt - cnt - 1 = 0 := by omega
                rw [this]
                rfl
              have := hreach (p2, s) h0
              simp only [this] at hreach2
              exact hreach2 (by simp)
            exact hstep (by omega)
        case isFalse hchk =>
          have hne : cnt + 1 ≠ mt := by
            intro he
            exact hchk (by constructor <;> omega)
          exact hstep (by omega)

theorem gmamScanFuel_fst {B C M : Type} (lib : ChessLib B C M) [DecidableEq B]
    (bytes : List Nat) (q : PositionQuery B C) :
    ∀ f i p cnt, (gmamScanFuel lib bytes q f i p cnt).1 = gmamLoopFuel lib bytes q f i p cnt := by
  intro f
  induction f with
  | zero => intro i p cnt; rfl
  | succ f ih =>
    intro i p cnt
    simp only [gmamScanFuel, gmamLoopFuel]
    cases h : nextMove lib bytes i p with
    | none => rfl
    | some r =>
      obtain ⟨i2, p2, s⟩ := r
      simp only []
      split
      · cases nextMove lib bytes i2 p2 <;> rfl
      · split
        · split
          · rfl
          · exact ih i2 p2 (cnt + 1)
        · exact ih i2 p2 (cnt + 1)

end Search

namespace Engine

theorem payloadDepth_of_all (e : List BestMoves) (d : Nat) (hne : e ≠ [])
    (hall : ∀ x ∈ e, x.depth = d) : payloadDepth e = d := by
  cases e with
  | nil => exact absurd rfl hne
  | cons a t => exact hall a (by simp)

theorem processParsedInfo_step (st : AnalysisState) (bm : BestMoves) (m : Nat)
    (hm : 1 ≤ m) (hrm : st.realMultipv = m) (hlen : st.bestMoves.length + 1 ≤ m) :
    (processParsedInfo st bm).1.realMultipv = m ∧
    (processParsedInfo st bm).1.bestMoves.length + 1 ≤ m ∧
    (2 ≤ m → st.lastDepth ≤ (processParsedInfo st bm).1.lastDepth) ∧
    ∀ e, (processParsedInfo st bm).2 = some e →
      (1 ≤ e.length ∧ e.length ≤ m ∧ (∀ x ∈ e, x.depth = payloadDepth e)) ∧
      (2 ≤ m → st.lastDepth ≤ payloadDepth e ∧
        payloadDepth e ≤ (processParsedInfo st bm).1.lastDepth) := by
  simp only [processParsedInfo]
  by_cases h1 : st.realMultipv = 1
  · rw [if_pos h1]
    have hm1 : m = 1 := by omega
    refine ⟨hrm, by simpa using hlen, by omega, ?_⟩
    intro e he
    simp only [Option.some.injEq] at he
    subst he
    refine ⟨⟨by simp, by simp [hm1], ?_⟩, by omega⟩
    intro x hx
    simp at hx
    subst hx
    rfl
  · rw [if_neg h1]
    by_cases h2 : bm.multipv = st.bestMoves.length + 1
    · rw [if_pos h2]
      by_cases h3 : bm.multipv = st.realMultipv
      · rw [if_pos h3]
        by_cases h4 : (st.bestMoves ++ [bm]).all (fun x => x.depth = bm.depth) = true ∧
            st.lastDepth ≤ bm.depth
        · rw [if_pos h4]
          have hall : ∀ x ∈ st.bestMoves ++ [bm], x.depth = bm.depth := by
            intro x hx
            have := List.all_eq_true.mp h4.1 x hx
            simpa using this
          have hne : st.bestMoves ++ [bm] ≠ [] := by simp
          have hpd : payloadDepth (st.bestMoves ++ [bm]) = bm.depth :=
            payloadDepth_of_all _ _ hne hall
          refine ⟨hrm, by simp; omega, ?_, ?_⟩
          · intro _
            simp only []
            split <;> omega
          · intro e he
            simp only [Option.some.injEq] at he
            subst he
            refine ⟨⟨by simp, ?_, ?_⟩, ?_⟩
            · have : (st.bestMoves ++ [bm]).length = bm.multipv := by
                simp [h2]
              omega
            · intro x hx
              rw [hpd]
              exact hall x hx
            · intro _
              rw [hpd]
              refine ⟨h4.2, ?_⟩
              simp only []
              split <;> omega
        · rw [if_neg h4]
          refine ⟨hrm, by simp; omega, fun _ => le_refl _, ?_⟩
          intro e he
          simp at he
      · rw [if_neg h3]
        refine ⟨hrm, ?_, fun _ => le_refl _, ?_⟩
        · have : st.bestMoves.length + 1 ≠ m := by
            rw [← hrm]
            intro hc
            exact h3 (by omega)
          simp
          omega
        · intro e he
          simp at he
    · rw [if_neg h2]
      by_cases h5 : bm.multipv = 1
      · rw [if_pos h5]
        refine ⟨hrm, ?_, fun _ => le_refl _, ?_⟩
        · simp
          omega
        · intro e he
          simp at he
      · rw [if_neg h5]
        refine ⟨hrm, by simp; omega, fun _ => le_refl _, ?_⟩
        intro e he
        simp at he

theorem runSessionFrom_invariant (m : Nat) (hm : 1 ≤ m) :
    ∀ (msgs : List BestMoves) (st : AnalysisState) (out : List (List BestMoves)),
      st.realMultipv = m →
      st.bestMoves.length + 1 ≤ m →
      (∀ e ∈ out, 1 ≤ e.length ∧ e.length ≤ m ∧ ∀ x ∈ e, x.depth = payloadDepth e) →
      (2 ≤ m → List.Pairwise (fun a b => payloadDepth a ≤ payloadDepth b) out) →
      (2 ≤ m → ∀ e ∈ out, payloadDepth e ≤ st.lastDepth) →
      (∀ e ∈ (runSessionFrom st out msgs).2,
        1 ≤ e.length ∧ e.length ≤ m ∧ ∀ x ∈ e, x.depth = payloadDepth e) ∧
      (2 ≤ m →
        List.Pairwise (fun a b => payloadDepth a ≤ payloadDepth b)
          (runSessionFrom st out msgs).2) := by
  intro msgs
  induction msgs with
  | nil =>
    intro st out h1 h2 h3 h4 _
    exact ⟨h3, h4⟩
  | cons bm rest ih =>
    intro st out h1 h2 h3 h4 h5
    simp only [runSessionFrom]
    have step := processParsedInfo_step st bm m hm h1 h2
    cases hem : (processParsedInfo st bm).2 with
    | none =>
      simp only [Option.toList_none, List.append_nil]
      apply ih _ _ step.1 step.2.1 h3 h4
      intro h2m e he
      exact le_trans (h5 h2m e he) (step.2.2.1 h2m)
    | some e =>
      simp only [Option.toList_some]
      have hestep := step.2.2.2 e hem
      apply ih _ _ step.1 step.2.1
      · intro e2 he2
        rcases List.mem_append.mp he2 with hin | hin
        · exact h3 e2 hin
        · simp at hin
          subst hin
          exact hestep.1
      · intro h2m
        rw [List.pairwise_append]
        refine ⟨h4 h2m, List.pairwise_singleton _ _, ?_⟩
        intro a ha b hb
        simp at hb
        subst hb
        exact le_trans (h5 h2m a ha) (hestep.2 h2m).1
      · intro h2m e2 he2
        rcases List.mem_append.mp he2 with hin | hin
        · exact le_trans (h5 h2m e2 hin) (step.2.2.1 h2m)
        · simp at hin
          subst hin
          exact (hestep.2 h2m).2

end Engine

namespace Engine

theorem pvFold_score {P M : Type} (lib : UciLib P M) :
    ∀ (ms : List String) (p : P) (bm bm2 : BestMoves),
      pvFold lib p bm ms = .ok bm2 → bm2.score = bm.score := by
  intro ms
  induction ms with
  | nil =>
    intro p bm bm2 h
    simp only [pvFold] at h
    cases h
    rfl
  | cons mv rest ih =>
    intro p bm bm2 h
    simp only [pvFold] at h
    cases hu : lib.uciToMove p mv with
    | none => rw [hu] at h; simp at h
    | some m =>
      rw [hu] at h
      simp only [] at h
      have := ih (lib.play p m)
        { bm with sanMoves := bm.sanMoves ++ [lib.san p m],
                  uciMoves := bm.uciMoves ++ [mv] } bm2 h
      exact this

theorem pvFold_sanMoves_nil {P M : Type} (lib : UciLib P M) (p : P) (bm : BestMoves) :
    pvFold lib p bm [] = .ok bm := rfl

theorem processAttrs_score {P M : Type} (lib : UciLib P M) (pos : P) :
    ∀ (attrs : List UciInfoAttribute) (bm : BestMoves) (hasPv : Bool)
      (res : BestMoves × Bool),
      processAttrs lib pos bm hasPv attrs = .ok res →
      res.1.score =
        attrs.foldl (fun s a => match a with | .score sc => sc | _ => s) bm.score := by
  intro attrs
  induction attrs with
  | nil =>
    intro bm hasPv res h
    simp only [processAttrs] at h
    cases h
    rfl
  | cons a rest ih =>
    intro bm hasPv res h
    cases a with
    | pv ms =>
      simp only [processAttrs] at h
      cases hpv : pvFold lib pos bm ms with
      | error e => rw [hpv] at h; simp at h
      | ok bm2 =>
        rw [hpv] at h
        simp only [] at h
        have := ih bm2 true res h
        rw [this, pvFold_score lib ms pos bm bm2 hpv]
        rfl
    | nps n =>
      simp only [processAttrs] at h
      exact ih { bm with nps := n } _ res h
    | nodes n =>
      simp only [processAttrs] at h
      exact ih { bm with nodes := n } _ res h
    | depth d =>
      simp only [processAttrs] at h
      exact ih { bm with depth := d } _ res h
    | multipv mp =>
      simp only [processAttrs] at h
      exact ih { bm with multipv := mp } _ res h
    | score sc =>
      simp only [processAttrs] at h
      exact ih { bm with score := sc } _ res h
    | other =>
      simp only [processAttrs] at h
      exact ih _ _ res h

theorem processAttrs_no_pv {P M : Type} (lib : UciLib P M) (pos : P) :
    ∀ (attrs : List UciInfoAttribute) (bm : BestMoves) (hasPv : Bool),
      pvMovesOf attrs = [] →
      ∃ res, processAttrs lib pos bm hasPv attrs = .ok res ∧
        res.1.sanMoves = bm.sanMoves := by
  intro attrs
  induction attrs with
  | nil =>
    intro bm hasPv _
    exact ⟨(bm, hasPv), rfl, rfl⟩
  | cons a rest ih =>
    intro bm hasPv hempty
    cases a with
    | pv ms =>
      have hms : ms = [] ∧ pvMovesOf rest = [] := by
        simp only [pvMovesOf] at hempty
        exact List.append_eq_nil.mp hempty
      obtain ⟨res, hres, hsan⟩ := ih bm true hms.2
      refine ⟨res, ?_, hsan⟩
      simp only [processAttrs, hms.1, pvFold_sanMoves_nil]
      exact hres
    | nps n =>
      obtain ⟨res, hres, hsan⟩ := ih { bm with nps := n } hasPv hempty
      exact ⟨res, hres, hsan⟩
    | nodes n =>
      obtain ⟨res, hres, hsan⟩ := ih { bm with nodes := n } hasPv hempty
      exact ⟨res, hres, hsan⟩
    | depth d =>
      obtain ⟨res, hres, hsan⟩ := ih { bm with depth := d } hasPv hempty
      exact ⟨res, hres, hsan⟩
    | multipv mp =>
      obtain ⟨res, hres, hsan⟩ := ih { bm with multipv := mp } hasPv hempty
      exact ⟨res, hres, hsan⟩
    | score sc =>
      obtain ⟨res, hres, hsan⟩ := ih { bm with score := sc } hasPv hempty
      exact ⟨res, hres, hsan⟩
    | other =>
      obtain ⟨res, hres, hsan⟩ := ih bm hasPv hempty
      exact ⟨res, hres, hsan⟩

end Engine


namespace EngineStop

theorem applyExt_mem (b : Bool) (s : EngState) (h : s = .stopping ∨ s = .idle) :
    applyExt b s = .stopping ∨ applyExt b s = .idle := by
  rcases h with h | h <;> subst h <;> cases b <;> simp [applyExt]

theorem sleepStep_state (o : Oracle) (σ : StopSt) :
    (sleepStep o σ).state = applyExt (o σ.t).ext σ.state := rfl

theorem sendStopRetryGo_state (o : Oracle) :
    ∀ n σ, (σ.state = .stopping ∨ σ.state = .idle) →
      ((sendStopRetryGo o n σ).2.state = .stopping ∨
        (sendStopRetryGo o n σ).2.state = .idle) := by
  intro n
  induction n with
  | zero => intro σ h; exact h
  | succ n ih =>
    intro σ h
    have hmem := applyExt_mem (o σ.t).ext σ.state h
    simp only [sendStopRetryGo, sendCommand]
    cases hsend : (o σ.t).send <;> simp only []
    case ok => exact hmem
    case brokenPipe => exact hmem
    case ioErr =>
      split
      · exact hmem
      · split
        · exact hmem
        · apply ih
          exact applyExt_mem _ _ hmem

theorem sendStopRetry_state (o : Oracle) (σ : StopSt)
    (h : σ.state = .stopping ∨ σ.state = .idle) :
    (sendStopRetry o σ).2.state = .stopping ∨ (sendStopRetry o σ).2.state = .idle :=
  sendStopRetryGo_state o 3 σ h

theorem waitForIdle_spec (o : Oracle) (σ : StopSt)
    (h : σ.state = .stopping ∨ σ.state = .idle) :
    (∀ u, (waitForIdle o σ).1 = .ok u → (waitForIdle o σ).2.state = .idle) ∧
      ((waitForIdle o σ).2.state = .stopping ∨ (waitForIdle o σ).2.state = .idle) := by
  simp only [waitForIdle]
  by_cases hid : σ.state = .idle
  · rw [if_pos hid]
    exact ⟨fun _ _ => hid, .inr hid⟩
  · rw [if_neg hid]
    by_cases hw : (o σ.t).waitIdle
    · rw [if_pos hw]
      exact ⟨fun _ _ => rfl, .inr rfl⟩
    · rw [if_neg hw]
      refine ⟨fun u hu => by simp at hu, ?_⟩
      exact applyExt_mem _ _ h

theorem stopWaitPhase_spec (o : Oracle) (σ : StopSt)
    (h : σ.state = .stopping ∨ σ.state = .idle) :
    (∀ u, (stopWaitPhase o σ).1 = .ok u → (stopWaitPhase o σ).2.state = .idle) ∧
      ((stopWaitPhase o σ).2.state = .stopping ∨ (stopWaitPhase o σ).2.state = .idle) := by
  simp only [stopWaitPhase]
  have hw1 := waitForIdle_spec o σ h
  cases hwr : (waitForIdle o σ).1 with
  | ok u =>
    exact ⟨fun _ _ => hw1.1 u hwr, .inr (hw1.1 u hwr)⟩
  | error e =>
    simp only []
    have hmem1 : (isProcessAlive o (waitForIdle o σ).2).2.state = .stopping ∨
        (isProcessAlive o (waitForIdle o σ).2).2.state = .idle := hw1.2
    split
    · have hr2 := sendStopRetry_state o _ hmem1
      have hw2 := waitForIdle_spec o _ hr2
      cases hwr2 : (waitForIdle o
          (sendStopRetry o (isProcessAlive o (waitForIdle o σ).2).2).2).1 with
      | ok u2 =>
        exact ⟨fun _ _ => hw2.1 u2 hwr2, .inr (hw2.1 u2 hwr2)⟩
      | error e2 =>
        exact ⟨fun u hu => absurd hu (by simp), hw2.2⟩
    · rcases hmem1 with hst | hst
      · rw [hst]
        have htr : transitionState .stopping .idle = .ok .idle := rfl
        rw [htr]
        exact ⟨fun _ _ => rfl, .inr rfl⟩
      · rw [hst]
        have htr : transitionState .idle .idle =
            .error (.invalidTransition .idle .idle) := rfl
        rw [htr]
        exact ⟨fun u hu => absurd hu (by simp), .inr hst⟩

theorem waitForStopFallback_spec (o : Oracle) (σ : StopSt)
    (h : σ.state = .stopping ∨ σ.state = .idle) :
    (∀ u, (waitForStopFallback o σ).1 = .ok u → (waitForStopFallback o σ).2.state = .idle) ∧
      ((waitForStopFallback o σ).2.state = .stopping ∨
        (waitForStopFallback o σ).2.state = .idle) := by
  simp only [waitForStopFallback]
  have hr1 := sendStopRetry_state o σ h
  cases hres1 : (sendStopRetry o σ).1 with
  | ok u0 =>
    exact stopWaitPhase_spec o _ hr1
  | error e =>
    simp only []
    have hmem : (isProcessAlive o (sendStopRetry o σ).2).2.state = .stopping ∨
        (isProcessAlive o (sendStopRetry o σ).2).2.state = .idle := hr1
    split
    · rcases hmem with hst | hst
      · rw [hst]
        have htr : transitionState .stopping .idle = .ok .idle := rfl
        rw [htr]
        exact ⟨fun _ _ => rfl, .inr rfl⟩
      · rw [hst]
        have htr : transitionState .idle .idle =
            .error (.invalidTransition .idle .idle) := rfl
        rw [htr]
        exact ⟨fun u hu => absurd hu (by simp), .inr hst⟩
    · exact stopWaitPhase_spec o _ hmem

end EngineStop

namespace Search

/-- C4: for every Exact position query and every tested position, `matches`
returns true if and only if the tested position's side to move, board planes
and en-passant square equal the query's; castling rights are never compared,
so changing only the castling rights of the tested position never changes
the verdict. -/
theorem c4_exact_match_ignores_castling {B C M : Type} (lib : ChessLib B C M)
    [DecidableEq B] [DecidableEq C] (d : ExactData B C) (p : Pos B C) :
    (matchesB lib (.exactQ d) p = true ↔
      d.position.turnWhite = p.turnWhite ∧ d.position.board = p.board ∧
        d.position.ep = p.ep) ∧
    (∀ c : C, matchesB lib (.exactQ d) ⟨p.board, p.turnWhite, p.ep, c⟩ =
      matchesB lib (.exactQ d) p) := by
  constructor
  · constructor
    · intro h
      refine ⟨?_, ?_, ?_⟩ <;> by_contra hc <;> simp [matchesB, hc] at h
    · intro ⟨h1, h2, h3⟩
      simp [matchesB, h1, h2, h3]
  · intro c
    simp only [matchesB]

end Search

namespace Eval

/-- C5: for every position with at least one legal move, `naive_eval` returns
the maximum over all legal moves of the negated quiescence value of the
resulting position (quiescence with the full window), and for every position
with no legal moves it returns `i32::MIN`.  Stated for every fuel value of
the fuel-indexed embedding. -/
theorem c5_naive_eval_max (f : Nat) (p : GamePos) :
    (p.legalMoves = [] → naiveEvalFuel f p = I32_MIN) ∧
    (p.legalMoves ≠ [] →
      naiveEvalFuel f p ∈
        p.legalMoves.map (fun mv => -(qsearchFuel f mv.2 I32_MIN I32_MAX)) ∧
      ∀ mv ∈ p.legalMoves,
        -(qsearchFuel f mv.2 I32_MIN I32_MAX) ≤ naiveEvalFuel f p) := by
  constructor
  · intro h
    simp [naiveEvalFuel, h]
  · intro h
    have hmapne : p.legalMoves.map (fun mv => -(qsearchFuel f mv.2 I32_MIN I32_MAX)) ≠ [] := by
      simpa using h
    cases hl : (p.legalMoves.map (fun mv => -(qsearchFuel f mv.2 I32_MIN I32_MAX))).max? with
    | none => exact absurd (List.max?_eq_none_iff.mp hl) hmapne
    | some a =>
      have hanti : Std.Antisymm (α := Int) (· ≤ ·) := ⟨fun h1 h2 => le_antisymm h1 h2⟩
      have heval : naiveEvalFuel f p = a := by
        simp [naiveEvalFuel, hl]
      rw [List.max?_eq_some_iff] at hl
      · constructor
        · rw [heval]
          exact hl.1
        · intro mv hmv
          rw [heval]
          exact hl.2 _ (List.mem_map_of_mem _ hmv)
      all_goals simp [le_total]

/-- Witness for C5 at a concrete position with two legal moves (one capture,
one quiet): the demo position's legal-move list is non-empty and the theorem
yields the membership and upper-bound facts there. -/
theorem c5_witness :
    demoPos.legalMoves ≠ [] ∧
    naiveEvalFuel 2 demoPos ∈
      demoPos.legalMoves.map (fun mv => -(qsearchFuel 2 mv.2 I32_MIN I32_MAX)) ∧
    ∀ mv ∈ demoPos.legalMoves,
      -(qsearchFuel 2 mv.2 I32_MIN I32_MAX) ≤ naiveEvalFuel 2 demoPos := by
  refine ⟨by simp [demoPos, GamePos.legalMoves], ?_⟩
  exact (c5_naive_eval_max 2 demoPos).2 (by simp [demoPos, GamePos.legalMoves])

end Eval

namespace Search

/-- C1: for every move blob, optional starting FEN and Exact position query,
if `get_move_after_match` returns a move string `m`, then there is a ply `i`
along the main line of the decoded game such that the position after ply `i`
matches the query, and `m` is the SAN string of the move at ply `i + 1`, or
the asterisk string when ply `i` is the last position of the main line. -/
theorem c1_get_move_after_match_sound {B C M : Type} (lib : ChessLib B C M)
    [DecidableEq B] (bytes : List Nat) (fen : Option String) (d : ExactData B C)
    (start : Pos B C) (m : String)
    (hstart : startPosition lib fen = some start)
    (h : getMoveAfterMatch lib bytes fen (.exactQ d) = .ok (some m)) :
    ∃ i, i < (plyPositions lib bytes start).length ∧
      matchesB lib (.exactQ d) ((plyPositions lib bytes start).getD i start) = true ∧
      ((i + 1 < (plyPositions lib bytes start).length ∧
          m = (plySans lib bytes start).getD i "") ∨
        (i + 1 = (plyPositions lib bytes start).length ∧ m = "*")) := by
  simp only [getMoveAfterMatch, hstart] at h
  by_cases hs : matchesB lib (.exactQ d) start
  · rw [if_pos hs] at h
    by_cases hempty : bytes.isEmpty
    · rw [if_pos hempty] at h
      simp only [Except.ok.injEq, Option.some.injEq] at h
      have hb : bytes = [] := List.isEmpty_iff.mp hempty
      have hML : mainLine lib bytes start = [] := by
        rw [mainLine, mainLineFrom_unfold,
          nextMove_none_of_past lib bytes 0 start (by simp [hb])]
      refine ⟨0, ?_, ?_, .inr ⟨?_, h.symm⟩⟩
      · simp [plyPositions]
      · simpa [plyPositions] using hs
      · simp [plyPositions, hML]
    · rw [if_neg hempty] at h
      cases hnm : nextMove lib bytes 0 start with
      | none => rw [hnm] at h; simp at h
      | some r =>
        obtain ⟨i2, p2, s⟩ := r
        rw [hnm] at h
        simp only [Except.ok.injEq, Option.some.injEq] at h
        have hML : mainLine lib bytes start = (p2, s) :: mainLineFrom lib bytes i2 p2 := by
          rw [mainLine, mainLineFrom_unfold lib bytes 0 start, hnm]
        refine ⟨0, ?_, ?_, .inl ⟨?_, ?_⟩⟩
        · simp [plyPositions]
        · simpa [plyPositions] using hs
        · simp [plyPositions, hML]
        · simp [plySans, hML, h]
  · rw [if_neg hs] at h
    simp only [Except.ok.injEq] at h
    obtain ⟨k, pr, h1x, h2, h3⟩ :=
      gmamLoopFuel_some lib bytes (.exactQ d) _ 0 start 0 m h
    have h1 : (mainLine lib bytes start).get? k = some pr := h1x
    have hkl : k < (mainLine lib bytes start).length := (List.get?_eq_some.mp h1).1
    have hpos : (plyPositions lib bytes start).getD (k + 1) start = pr.1 := by
      simp only [plyPositions, List.getD_cons_succ]
      rw [List.getD_eq_getElem?_getD, List.getElem?_map, ← List.get?_eq_getElem?, h1]
      rfl
    refine ⟨k + 1, ?_, ?_, ?_⟩
    · simp only [plyPositions, List.length_cons, List.length_map]
      omega
    · rw [hpos]
      exact h2
    · rcases h3 with ⟨pr2, h4x, h5⟩ | ⟨h4x, h5⟩
      · left
        have h4 : (mainLine lib bytes start).get? (k + 1) = some pr2 := h4x
        have hk2 : k + 1 < (mainLine lib bytes start).length := (List.get?_eq_some.mp h4).1
        constructor
        · simp only [plyPositions, List.length_cons, List.length_map]
          omega
        · rw [h5]
          simp only [plySans]
          rw [List.getD_eq_getElem?_getD, List.getElem?_map, ← List.get?_eq_getElem?, h4]
          rfl
      · right
        have h4 : (mainLine lib bytes start).get? (k + 1) = none := h4x
        have hk2 : (mainLine lib bytes start).length ≤ k + 1 := List.get?_eq_none.mp h4
        constructor
        · simp only [plyPositions, List.length_cons, List.length_map]
          omega
        · exact h5

/-- Witness for C1: on the toy library with a one-move blob and an exact
query matching the start position, `get_move_after_match` returns the SAN of
the first move, and the theorem produces the matching ply. -/
theorem c1_witness :
    ∃ i, i < (plyPositions toyLib [0] toyStart).length ∧
      matchesB toyLib (.exactQ ⟨0, ⟨100, 100⟩, toyStart⟩)
        ((plyPositions toyLib [0] toyStart).getD i toyStart) = true ∧
      ((i + 1 < (plyPositions toyLib [0] toyStart).length ∧
          "m" = (plySans toyLib [0] toyStart).getD i "") ∨
        (i + 1 = (plyPositions toyLib [0] toyStart).length ∧ "m" = "*")) :=
  c1_get_move_after_match_sound toyLib [0] none ⟨0, ⟨100, 100⟩, toyStart⟩ toyStart "m"
    (by rfl) (by decide)

end Search

namespace Search

/-- C2 counterexample: on the toy library with a five-move game whose first
position already cannot reach the query target (and which never matches),
the claim "reachability is checked at every step, returning None without
scanning any further move" is false: the code scans all five moves (the
instrumented scan counter reaches 5, while the claim bounds it by 1). -/
theorem c2_counterexample : ¬ C2ClaimStatement toyLib blob5 none toyQueryNever1 := by
  intro h
  have hget : (mainLine toyLib blob5 toyStart).get? 0 =
      some (⟨1, false, none, 0⟩, "m") := by decide
  have h0 := h toyStart rfl (by decide) 0 (⟨1, false, none, 0⟩, "m") hget
    (fun j prj hj hj0 => by
      have hj0x : j = 0 := Nat.le_zero.mp hj0
      subst hj0x
      rw [hget] at hj
      cases hj
      decide)
    (by decide)
  have h5 : (gmamScan toyLib blob5 toyQueryNever1 0 toyStart 0).2 = 5 := by decide
  rw [h5] at h0
  exact absurd h0.2 (by omega)

/-- C2 amended: the scan of `get_move_after_match` checks reachability only
after every 10th decoded move once more than 20 moves have been decoded:
whenever a checkpoint move count `mt` (with `20 < mt` and `mt` a multiple of
10) is reached with no match up to there and the position after move `mt`
cannot reach the query target, the function returns no match having scanned
at most `mt` moves of the game. -/
theorem c2_amended_reachability_cutoff {B C M : Type} (lib : ChessLib B C M)
    [DecidableEq B] (bytes : List Nat) (fen : Option String)
    (q : PositionQuery B C) (start : Pos B C) (mt : Nat)
    (hstart : startPosition lib fen = some start)
    (hs : matchesB lib q start = false)
    (h20 : 20 < mt) (h10 : mt % 10 = 0)
    (hmatch : ∀ k pr, (mainLine lib bytes start).get? k = some pr → k + 1 ≤ mt →
      matchesB lib q pr.1 = false)
    (hreach : ∀ pr, (mainLine lib bytes start).get? (mt - 1) = some pr →
      isReachableByB q (lib.materialCount pr.1.board) (lib.pawnHome pr.1.board) = false) :
    getMoveAfterMatch lib bytes fen q = .ok none ∧
      (gmamScan lib bytes q 0 start 0).2 ≤ mt := by
  have hx := gmamScanFuel_unreachable lib bytes q mt h20 h10
      (bytes.length + 1 - 0) 0 start 0 (by omega)
      (fun k pr hpr hk => hmatch k pr hpr (by omega))
      (fun pr hpr => by
        apply hreach pr
        have harith : mt - 0 - 1 = mt - 1 := by omega
        rw [harith] at hpr
        exact hpr)
  constructor
  · simp only [getMoveAfterMatch, hstart]
    rw [if_neg (by simp [hs])]
    have hloop : gmamLoop lib bytes q 0 start 0 = none := by
      rw [gmamLoop, ← gmamScanFuel_fst lib bytes q]
      exact hx.1
    rw [hloop]
  · exact hx.2

/-- Witness for C2's amended statement: on the toy library with a forty-move
game, a query that never matches and whose material target becomes
unreachable after ply 25, the checkpoint at move 30 stops the scan: the
result is no match and at most 30 moves were scanned. -/
theorem c2_witness :
    getMoveAfterMatch toyLib blob40 none toyQueryNever25 = .ok none ∧
      (gmamScan toyLib blob40 toyQueryNever25 0 toyStart 0).2 ≤ 30 := by
  have hall : ∀ k, k < (mainLine toyLib blob40 toyStart).length →
      matchesB toyLib toyQueryNever25
        ((mainLine toyLib blob40 toyStart).getD k (toyStart, "")).1 = false := by
    decide
  have hg29 : (mainLine toyLib blob40 toyStart).get? 29 =
      some (⟨30, true, none, 0⟩, "m") := by decide
  exact c2_amended_reachability_cutoff toyLib blob40 none toyQueryNever25 toyStart 30
    rfl (by decide) (by decide) (by decide)
    (fun k pr hget hk => by
      have hkl := (List.get?_eq_some.mp hget).1
      have hgd : (mainLine toyLib blob40 toyStart).getD k (toyStart, "") = pr := by
        rw [List.getD_eq_getElem?_getD, ← List.get?_eq_getElem?, hget]
        rfl
      rw [← hgd]
      exact hall k hkl)
    (fun pr hpr => by
      rw [hg29] at hpr
      cases hpr
      decide)

end Search

namespace Search

theorem nextMoveFuel_some_san {B C M : Type} (lib : ChessLib B C M) (bytes : List Nat) :
    ∀ f i p r, nextMoveFuel lib bytes f i p = some r →
      ∃ mv, lib.sanPlay p mv = (r.2.2, r.2.1) := by
  intro f
  induction f with
  | zero => intro i p r h; simp [nextMoveFuel] at h
  | succ f ih =>
    intro i p r h
    simp only [nextMoveFuel] at h
    split at h
    case isFalse => simp at h
    case isTrue hi =>
      split at h
      · split at h
        · simp at h
        · exact ih _ p r h
      · split at h
        · exact ih _ p r h
        · split at h
          · exact ih _ p r h
          · split at h
            · exact ih _ p r h
            · split at h
              · cases h
                exact ⟨_, rfl⟩
              · simp at h

theorem nextMove_some_san {B C M : Type} (lib : ChessLib B C M) (bytes : List Nat)
    (i : Nat) (p : Pos B C) (r : Nat × Pos B C × String)
    (h : nextMove lib bytes i p = some r) :
    ∃ mv, lib.sanPlay p mv = (r.2.2, r.2.1) :=
  nextMoveFuel_some_san lib bytes _ i p r h

/-- C8 (code slip): on a blob consisting of a COMMENT token whose eight
length bytes encode `2 ^ 64 - 9`, the release-mode index update
`self.index += 9 + length` wraps back to the same index, so the decoding
loop runs forever instead of stopping cleanly (and in debug builds the
addition overflows and panics): iterating the wrapping loop step any number
of times from the start of `overflowBlob` leaves the state unchanged and
never halts. -/
theorem c8_comment_length_overflow_loops {B C M : Type} (lib : ChessLib B C M)
    (p : Pos B C) : ∀ n, iterWrap lib overflowBlob n 0 p = .cont 0 p := by
  intro n
  induction n with
  | zero => rfl
  | succ n ih =>
    have hstep : nextMoveStepWrap lib overflowBlob 0 p = .cont 0 p := rfl
    simp only [iterWrap, hstep]
    exact ih

/-- C9: for every game processed by the checkpoint builder, the collected
rows are exactly one row for ply 0 and one for every later main-line ply that
is a multiple of 8, each carrying the game id, the ply, the 0-for-White /
1-for-Black side code and the board hash obtained by folding the twelve
piece-by-colour bitboards in the fixed order WP, BP, WN, BN, WB, BB, WR, BR,
WQ, BQ, WK, BK through `mix64` from the seed `0x123456789ABCDEF0`; the rows'
plies are strictly increasing, so no ply receives two rows. -/
theorem c9_checkpoint_rows {B C M : Type} (lib : ChessLib B C M) (gid : Int)
    (bytes : List Nat) (fen : Option String) (start : Pos B C)
    (hstart : startPosition lib fen = some start) :
    checkpointRowsForGame lib gid bytes fen =
      .ok (checkpointRowsSpec lib gid bytes start) ∧
    boardHash lib start.board = boardHashSpec lib start.board ∧
    List.Pairwise (fun a b => a.ply < b.ply) (checkpointRowsSpec lib gid bytes start) := by
  have hloop : checkpointLoop lib bytes gid 0 start 0 =
      ((mainLine lib bytes start).enumFrom 1).filterMap (rowOf lib gid) :=
    checkpointLoopFuel_eq lib bytes gid (bytes.length + 1 - 0) 0 start 0 (by omega)
  refine ⟨?_, rfl, ?_⟩
  · simp only [checkpointRowsForGame, hstart]
    rw [show checkpointLoop lib bytes gid 0 start 0 =
      ((mainLine lib bytes start).enumFrom 1).filterMap (rowOf lib gid) from hloop]
    rfl
  · show List.Pairwise (fun a b => a.ply < b.ply)
      (⟨gid, 0, boardHash lib start.board, sideCode start⟩ ::
        ((mainLine lib bytes start).enumFrom 1).filterMap (rowOf lib gid))
    rw [← hloop]
    refine List.Pairwise.cons ?_ (checkpointLoopFuel_plies lib bytes gid _ 0 start 0).2
    intro r hr
    exact (checkpointLoopFuel_plies lib bytes gid _ 0 start 0).1 r hr

/-- Witness for C9: on the toy library with a ten-move game, the builder's
rows equal the described list (the ply-0 row followed by the ply-8 row). -/
theorem c9_witness :
    checkpointRowsForGame toyLib 7 blob10 none =
      .ok (checkpointRowsSpec toyLib 7 blob10 toyStart) ∧
    List.Pairwise (fun a b => a.ply < b.ply) (checkpointRowsSpec toyLib 7 blob10 toyStart) :=
  ⟨(c9_checkpoint_rows toyLib 7 blob10 none toyStart rfl).1,
   (c9_checkpoint_rows toyLib 7 blob10 none toyStart rfl).2.2⟩

/-- C10: for every query whose starting position already matches it,
`get_move_after_match` returns the asterisk string exactly when the move
blob is empty; when the blob is non-empty but no first move can be decoded
from it, the result is no match (None), so the game is not counted.  The
hypothesis on `sanPlay` records that the chess library's SAN strings are
never the asterisk string. -/
theorem c10_start_match_star_iff_empty {B C M : Type} (lib : ChessLib B C M)
    [DecidableEq B] (bytes : List Nat) (fen : Option String)
    (q : PositionQuery B C) (start : Pos B C)
    (hstart : startPosition lib fen = some start)
    (hm : matchesB lib q start = true)
    (hsan : ∀ (p : Pos B C) (mv : M), (lib.sanPlay p mv).1 ≠ "*") :
    (getMoveAfterMatch lib bytes fen q = .ok (some "*") ↔ bytes = []) ∧
    ((bytes ≠ [] ∧ nextMove lib bytes 0 start = none) →
      getMoveAfterMatch lib bytes fen q = .ok none) := by
  simp only [getMoveAfterMatch, hstart, hm, if_true]
  constructor
  · constructor
    · intro h
      by_cases hb : bytes.isEmpty
      · exact List.isEmpty_iff.mp hb
      · rw [if_neg (by simpa using hb)] at h
        cases hnm : nextMove lib bytes 0 start with
        | none => rw [hnm] at h; exact absurd h (by simp)
        | some r =>
          obtain ⟨i2, p2, s⟩ := r
          rw [hnm] at h
          simp only [Except.ok.injEq, Option.some.injEq] at h
          obtain ⟨mv, hmv⟩ := nextMove_some_san lib bytes 0 start _ hnm
          have hsp : (lib.sanPlay start mv).1 = s := by rw [hmv]
          exact absurd (hsp.trans h) (hsan start mv)
    · intro hb
      subst hb
      simp
  · intro ⟨hb, hnm⟩
    rw [if_neg (by simpa using hb), hnm]

/-- Witness for C10: on the toy library, with the query matching the start
position and a blob whose single byte is an out-of-range move index, the
result is no match. -/
theorem c10_witness :
    getMoveAfterMatch toyLib [5] none toyQueryStart = .ok none :=
  (c10_start_match_star_iff_empty toyLib [5] none toyQueryStart toyStart rfl
    (by decide) (fun p mv => by show "m" ≠ "*"; decide)).2 ⟨by decide, by decide⟩

end Search

namespace Engine

/-- C3 counterexample: with effective MultiPV 1 the handler emits every
parsed info line immediately and overwrites its depth bookkeeping without
comparison, so a session receiving a depth-2 line followed by a depth-1 line
emits payloads with depths 2 then 1 — the claimed monotonic non-decrease of
payload depths is false as stated. -/
theorem c3_counterexample : ¬ EmitClaimStatement := by
  intro h
  have hemits : sessionEmits 1 [bmOf 2 1, bmOf 1 1] = [[bmOf 2 1], [bmOf 1 1]] := by decide
  have hp := (h 1 [bmOf 2 1, bmOf 1 1] (by decide)).2
  rw [hemits] at hp
  cases hp with
  | cons h1 _ =>
    exact absurd (h1 [bmOf 1 1] (by simp)) (by decide)

/-- C3 amended: every emitted payload of a session with effective MultiPV
`m ≥ 1` has between 1 and `m` lines all sharing one depth; when `m ≥ 2` the
depths of successively emitted payloads never decrease (with `m = 1` each
line is emitted immediately and its depth may decrease). -/
theorem c3_amended_emission_invariants (m : Nat) (msgs : List BestMoves) (hm : 1 ≤ m) :
    (∀ e ∈ sessionEmits m msgs,
      1 ≤ e.length ∧ e.length ≤ m ∧ ∀ x ∈ e, x.depth = payloadDepth e) ∧
    (2 ≤ m →
      List.Pairwise (fun a b => payloadDepth a ≤ payloadDepth b) (sessionEmits m msgs)) := by
  have hinv := runSessionFrom_invariant m hm msgs (AnalysisState.start m) []
    rfl (by simp [AnalysisState.start]; omega) (by simp)
    (fun _ => List.Pairwise.nil) (by simp)
  exact hinv

/-- Witness for C3's amended statement: a complete MultiPV-2 session of two
rank-1/rank-2 lines at depth 3 emits one well-formed payload and the depth
sequence is monotone. -/
theorem c3_witness :
    (∀ e ∈ sessionEmits 2 [bmOf 3 1, bmOf 3 2],
      1 ≤ e.length ∧ e.length ≤ 2 ∧ ∀ x ∈ e, x.depth = payloadDepth e) ∧
    (2 ≤ 2 →
      List.Pairwise (fun a b => payloadDepth a ≤ payloadDepth b)
        (sessionEmits 2 [bmOf 3 1, bmOf 3 2])) :=
  c3_amended_emission_invariants 2 [bmOf 3 1, bmOf 3 2] (by decide)

/-- C6: for every attribute list, starting FEN and played-move list (with
the FEN parsing and the replay succeeding), `parse_info_to_best_moves` fails
with `NoMovesFound` whenever the attributes carry no PV move, and a
successful parse carries the last reported score inverted exactly when the
side to move at the start of the PV — after replaying the played moves — is
Black (centipawns and mate counts negated, the wdl triple reversed by
`invert_score`). -/
theorem c6_parse_info_score_inversion {P M : Type} (lib : UciLib P M)
    (attrs : List UciInfoAttribute) (fen : String) (moves : List String)
    (p0 pos : P)
    (hp0 : lib.parseFen fen = some p0)
    (hrep : replayMoves lib p0 moves = some pos) :
    (pvMovesOf attrs = [] →
      parseInfoToBestMoves lib attrs fen moves = .error .noMovesFound) ∧
    (∀ bm, parseInfoToBestMoves lib attrs fen moves = .ok bm →
      bm.score = if lib.turnWhite pos then lastScore attrs
        else invertScore (lastScore attrs)) := by
  constructor
  · intro hempty
    obtain ⟨res, hres, hsan⟩ := processAttrs_no_pv lib pos attrs BestMoves.dflt false hempty
    obtain ⟨bmr, hpv⟩ := res
    simp only [parseInfoToBestMoves, hp0, hrep, hres]
    have hsan2 : bmr.sanMoves = [] := hsan
    rw [if_pos (Or.inr hsan2)]
  · intro bm h
    simp only [parseInfoToBestMoves, hp0, hrep] at h
    cases hpa : processAttrs lib pos BestMoves.dflt false attrs with
    | error e => rw [hpa] at h; simp at h
    | ok res =>
      obtain ⟨bmr, hpv⟩ := res
      rw [hpa] at h
      simp only [] at h
      have hscore : bmr.score = lastScore attrs :=
        processAttrs_score lib pos attrs BestMoves.dflt false (bmr, hpv) hpa
      by_cases hcond : ¬ hpv = true ∨ bmr.sanMoves = []
      · rw [if_pos hcond] at h
        simp at h
      · rw [if_neg hcond] at h
        by_cases ht : lib.turnWhite pos
        · rw [if_pos ht] at h
          simp only [Except.ok.injEq] at h
          subst h
          rw [if_pos ht]
          exact hscore
        · rw [if_neg ht] at h
          simp only [Except.ok.injEq] at h
          subst h
          rw [if_neg ht]
          show invertScore bmr.score = invertScore (lastScore attrs)
          rw [hscore]

/-- Witness for C6: with the toy UCI library, an info line with no PV fails
with `NoMovesFound`, and an info line whose PV starts with Black to move
(after one played move) carries the inverted score. -/
theorem c6_witness :
    parseInfoToBestMoves toyUci [UciInfoAttribute.depth 5] "f" [] = .error .noMovesFound ∧
    ∀ bm, parseInfoToBestMoves toyUci
        [UciInfoAttribute.pv ["e2e4"], UciInfoAttribute.score demoScore] "f" ["e2e4"] =
          .ok bm →
      bm.score = invertScore demoScore := by
  constructor
  · exact (c6_parse_info_score_inversion toyUci [UciInfoAttribute.depth 5] "f" []
      true true rfl rfl).1 rfl
  · intro bm h
    have hth := (c6_parse_info_score_inversion toyUci
      [UciInfoAttribute.pv ["e2e4"], UciInfoAttribute.score demoScore] "f" ["e2e4"]
      true false rfl rfl).2 bm h
    have h2 : (if toyUci.turnWhite false then
        lastScore [UciInfoAttribute.pv ["e2e4"], UciInfoAttribute.score demoScore]
      else invertScore
        (lastScore [UciInfoAttribute.pv ["e2e4"], UciInfoAttribute.score demoScore])) =
        invertScore demoScore := by decide
    exact hth.trans h2

end Engine

namespace EngineStop

/-- C7: every call of the engine's stop operation made in the `Analyzing`
state returns success — `StopTimeout` is never propagated — and on return
the engine state is `Idle`, for every environment behaviour, including
environments in which the stop command cannot be sent because the pipe to
the subprocess is broken. -/
theorem c7_stop_returns_ok_idle (o : Oracle) :
    stopModel o = (.ok (), .idle) := by
  simp only [stopModel]
  by_cases hal : (isProcessAlive o ⟨.analyzing, 0⟩).1
  · rw [if_neg (by simpa using hal)]
    have htr : transitionState (isProcessAlive o ⟨.analyzing, 0⟩).2.state .stopping =
        .ok .stopping := rfl
    rw [htr]
    have hspec := waitForStopFallback_spec o
      ⟨.stopping, (isProcessAlive o ⟨.analyzing, 0⟩).2.t⟩ (.inl rfl)
    cases hr : (waitForStopFallback o
        ⟨.stopping, (isProcessAlive o ⟨.analyzing, 0⟩).2.t⟩).1 with
    | ok u =>
      have hidle := hspec.1 u hr
      simp only []
      rw [hidle, hr]
    | error e =>
      simp only []
      rcases hspec.2 with hst | hst
      · rw [if_pos (by rw [hst]; decide)]
        rw [hst]
        have htr2 : transitionState EngState.stopping .idle = .ok .idle := rfl
        rw [htr2, hr]
      · rw [if_neg (by rw [hst]; decide)]
        rw [hst, hr]
  · rw [if_pos (by simpa using hal)]
    have htr : transitionState (isProcessAlive o ⟨.analyzing, 0⟩).2.state .idle =
        .ok .idle := rfl
    rw [htr]

end EngineStop
